import Mathlib

/-!
Verification of the nuts-rs verifiable-transaction-graph engine.

The Rust sources are shallowly embedded: machine integers become `Nat`
with explicit `% 2^w` where overflow matters, byte buffers become
`List Nat`, strings become `List Char`, fallible functions return
`Option` or `Except`. External crates used by the engine (`sha2`, `hex`,
`base64`, `serde_json`, `bincode`, the `sled` ordered keyed store) are
modelled by executable Lean functions that follow the documented
behaviour of those crates on the inputs the engine feeds them.

Sections, in dependency order:
  1. bytes, the `hex` codec, SHA-256, and `Hash` (src/network/hash.rs)
  2. UTF-8 encoding and decoding (`String::from_utf8`)
  3. base64url decoding, URL_SAFE_NO_PAD (the `base64` crate)
  4. a JSON parser (`serde_json`, integers only)
  5. the JWS header and `Transaction::parse_unsafe` (src/network/transaction.rs)
  6. the sled tree model (ordered keyed store)
  7. `KeyStore` (src/pki.rs)
  8. the DAG, `walk_recursive` and `Graph` (src/network/graph.rs)
  9. the handshake metadata logic (src/network/server.rs)
and then one theorem per claim C1..C10.
-/

namespace Nuts

/-! ## Section 1: bytes, hex, SHA-256, Hash -/

/-- Byte sequences (each entry is intended to lie in [0, 256)). -/
abbrev Bytes := List Nat

/-- Value of one ASCII hex digit, as accepted by the `hex` crate:
digits, lowercase a-f and uppercase A-F. -/
def hexVal (b : Nat) : Option Nat :=
  if 48 ≤ b ∧ b ≤ 57 then some (b - 48)
  else if 97 ≤ b ∧ b ≤ 102 then some (b - 87)
  else if 65 ≤ b ∧ b ≤ 70 then some (b - 55)
  else none

/-- Model of `hex::decode`: fails on odd length or any non-hex byte. -/
def hexDecode : Bytes → Option Bytes
  | [] => some []
  | [_] => none
  | a :: b :: rest =>
    match hexVal a, hexVal b, hexDecode rest with
    | some x, some y, some r => some ((x * 16 + y) :: r)
    | _, _, _ => none

/-- Lower-hex digit for a value in [0, 16), as produced by `hex::encode`. -/
def hexDigit (n : Nat) : Nat := if n < 10 then 48 + n else 87 + n

/-- Model of `hex::encode` (lower-hex), producing ASCII bytes. -/
def hexEncode (bs : Bytes) : Bytes :=
  bs.flatMap (fun b => [hexDigit (b / 16), hexDigit (b % 16)])

/-- Truncation to 32 bits. -/
def w32 (n : Nat) : Nat := n % 4294967296

/-- 32-bit right rotation. -/
def rotr32 (n k : Nat) : Nat := w32 ((n >>> k) ||| (n <<< (32 - k)))

/-- The SHA-256 round constants. -/
def shaK : List Nat := [
  1116352408, 1899447441, 3049323471, 3921009573, 961987163,
  1508970993, 2453635748, 2870763221, 3624381080, 310598401,
  607225278, 1426881987, 1925078388, 2162078206, 2614888103,
  3248222580, 3835390401, 4022224774, 264347078, 604807628,
  770255983, 1249150122, 1555081692, 1996064986, 2554220882,
  2821834349, 2952996808, 3210313671, 3336571891, 3584528711,
  113926993, 338241895, 666307205, 773529912, 1294757372,
  1396182291, 1695183700, 1986661051, 2177026350, 2456956037,
  2730485921, 2820302411, 3259730800, 3345764771, 3516065817,
  3600352804, 4094571909, 275423344, 430227734, 506948616,
  659060556, 883997877, 958139571, 1322822218, 1537002063,
  1747873779, 1955562222, 2024104815, 2227730452, 2361852424,
  2428436474, 2756734187, 3204031479, 3329325298]

/-- The SHA-256 initial state. -/
def shaH0 : List Nat := [
  1779033703, 3144134277, 1013904242, 2773480762, 1359893119,
  2600822924, 528734635, 1541459225]

/-- SHA-256 message padding: 0x80, zeros, then the bit length as 8 big-endian bytes. -/
def padMessage (msg : Bytes) : Bytes :=
  let L := msg.length
  let padZeros := (64 - (L + 9) % 64) % 64
  msg ++ [0x80] ++ List.replicate padZeros 0 ++
    (List.range 8).map (fun i => (L * 8) >>> ((7 - i) * 8) % 256)

/-- Big-endian grouping of bytes into 32-bit words. -/
def bytesToWords : Bytes → List Nat
  | a :: b :: c :: d :: rest => (a <<< 24 ||| b <<< 16 ||| c <<< 8 ||| d) :: bytesToWords rest
  | _ => []

/-- Extension of the 16 block words to the 64-entry message schedule
(each step appends one word). -/
def msgSchedule (ws : List Nat) : Nat → List Nat
  | 0 => ws
  | k + 1 =>
    let ws' := msgSchedule ws k
    let n := ws'.length
    let g := fun (j : Nat) => ws'.getD (n - j) 0
    let s0 := Nat.xor (Nat.xor (rotr32 (g 15) 7) (rotr32 (g 15) 18)) ((g 15) >>> 3)
    let s1 := Nat.xor (Nat.xor (rotr32 (g 2) 17) (rotr32 (g 2) 19)) ((g 2) >>> 10)
    ws' ++ [w32 (g 16 + s0 + g 7 + s1)]

/-- One round of the SHA-256 compression function. -/
def compressStep (st : List Nat) (kw : Nat × Nat) : List Nat :=
  match st with
  | [a, b, c, d, e, f, g, h] =>
    let S1 := Nat.xor (Nat.xor (rotr32 e 6) (rotr32 e 11)) (rotr32 e 25)
    let ch := Nat.xor (Nat.land e f) (Nat.land (Nat.xor e 0xFFFFFFFF) g)
    let t1 := w32 (h + S1 + ch + kw.1 + kw.2)
    let S0 := Nat.xor (Nat.xor (rotr32 a 2) (rotr32 a 13)) (rotr32 a 22)
    let mj := Nat.xor (Nat.xor (Nat.land a b) (Nat.land a c)) (Nat.land b c)
    let t2 := w32 (S0 + mj)
    [w32 (t1 + t2), a, b, c, w32 (d + t1), e, f, g]
  | _ => st

/-- SHA-256 compression of one 64-byte block into the running state. -/
def compressBlock (h : List Nat) (block : Bytes) : List Nat :=
  let ws := msgSchedule (bytesToWords block) 48
  let st := (shaK.zip ws).foldl compressStep h
  (h.zip st).map (fun p => w32 (p.1 + p.2))

/-- Split into 64-byte chunks; the fuel argument bounds the recursion. -/
def chunksAux : Nat → Bytes → List Bytes
  | 0, _ => []
  | _, [] => []
  | n + 1, a :: rest => ((a :: rest).take 64) :: chunksAux n ((a :: rest).drop 64)

/-- Split a (padded) message into 64-byte chunks. -/
def chunks (l : Bytes) : List Bytes := chunksAux l.length l

/-- SHA-256 over a byte sequence (the `sha2` crate used by `Hash::new`). -/
def sha256 (msg : Bytes) : Bytes :=
  let hs := (chunks (padMessage msg)).foldl compressBlock shaH0
  hs.flatMap (fun h => [h >>> 24 % 256, h >>> 16 % 256, h >>> 8 % 256, h % 256])

/-- A 32-byte SHA-256 digest (struct `Hash` in src/network/hash.rs). -/
structure Hash where
  bytes : Bytes
deriving DecidableEq, Repr, Inhabited

/-- `to_fixed` from src/network/hash.rs: succeeds only on exactly 32 bytes. -/
def to_fixed (bs : Bytes) : Option Bytes :=
  if bs.length = 32 then some bs else none

/-- `Hash::new`: SHA-256 of the input. The Rust version wraps the digest in
`to_fixed`, which cannot fail on a 32-byte digest, so this is total. -/
def Hash.new (data : Bytes) : Hash := ⟨sha256 data⟩

/-- `Hash::parse`: accepts exactly 32 raw bytes. -/
def Hash.parse (source : Bytes) : Option Hash :=
  (to_fixed source).map Hash.mk

/-- `Hash::parse_hex`: hex-decode, then `Hash::parse`. -/
def Hash.parse_hex (source : Bytes) : Option Hash :=
  (hexDecode source).bind Hash.parse

/-- The `Display` form of a hash: lower-hex ASCII bytes of its 32 bytes. -/
def Hash.display (h : Hash) : Bytes := hexEncode h.bytes

/-! ## Section 2: UTF-8

Rust `String` / `&str` values are modelled as `List Char`; their byte
form (`as_bytes`, `String::from_utf8`) is the UTF-8 codec below. -/

/-- UTF-8 encoding of a single scalar value (1 to 4 bytes). -/
def utf8EncodeChar (c : Char) : Bytes :=
  if c.toNat < 0x80 then [c.toNat]
  else if c.toNat < 0x800 then [0xC0 + c.toNat / 64, 0x80 + c.toNat % 64]
  else if c.toNat < 0x10000 then
    [0xE0 + c.toNat / 4096, 0x80 + c.toNat / 64 % 64, 0x80 + c.toNat % 64]
  else
    [0xF0 + c.toNat / 262144, 0x80 + c.toNat / 4096 % 64, 0x80 + c.toNat / 64 % 64,
      0x80 + c.toNat % 64]

/-- Model of `str::as_bytes`: UTF-8 bytes of a string. -/
def utf8Encode (s : List Char) : Bytes := s.flatMap utf8EncodeChar

/-- Decoding of one UTF-8 scalar value: given a lead byte and the
remaining bytes, yield the scalar value and the bytes after it. This
follows the validation of `String::from_utf8`: bad lead bytes, bad
continuations, overlong forms, surrogates and values above U+10FFFF are
rejected. -/
def utf8Step (b : Nat) (rest : Bytes) : Option (Nat × Bytes) :=
  if b < 0x80 then some (b, rest)
  else if b < 0xC2 then none
  else if b < 0xE0 then
    match rest with
    | c1 :: tl =>
      if 0x80 ≤ c1 ∧ c1 < 0xC0 then some ((b - 0xC0) * 64 + (c1 - 0x80), tl) else none
    | _ => none
  else if b < 0xF0 then
    match rest with
    | c1 :: c2 :: tl =>
      if ((if b = 0xE0 then 0xA0 else 0x80) ≤ c1 ∧ c1 < (if b = 0xED then 0xA0 else 0xC0)) ∧
          (0x80 ≤ c2 ∧ c2 < 0xC0) then
        some ((b - 0xE0) * 4096 + (c1 - 0x80) * 64 + (c2 - 0x80), tl)
      else none
    | _ => none
  else if b < 0xF5 then
    match rest with
    | c1 :: c2 :: c3 :: tl =>
      if ((if b = 0xF0 then 0x90 else 0x80) ≤ c1 ∧ c1 < (if b = 0xF4 then 0x90 else 0xC0)) ∧
          (0x80 ≤ c2 ∧ c2 < 0xC0) ∧ (0x80 ≤ c3 ∧ c3 < 0xC0) then
        some ((b - 0xF0) * 262144 + (c1 - 0x80) * 4096 + (c2 - 0x80) * 64 + (c3 - 0x80), tl)
      else none
    | _ => none
  else none

/-- Fuel-bounded UTF-8 decoding loop; each step consumes at least one
byte, so fuel equal to the byte count suffices. -/
def utf8DecodeAux : Nat → Bytes → Option (List Char)
  | _, [] => some []
  | 0, _ :: _ => none
  | fuel + 1, b :: rest =>
    match utf8Step b rest with
    | some (n, tl) => (utf8DecodeAux fuel tl).map (fun s => Char.ofNat n :: s)
    | none => none

/-- Model of `String::from_utf8` validation: strict UTF-8 decoding. -/
def utf8Decode (bs : Bytes) : Option (List Char) := utf8DecodeAux bs.length bs

/-- Reduction of `utf8Step` on an ASCII byte. -/
theorem utf8Step_one (b : Nat) (rest : Bytes) (h : b < 0x80) :
    utf8Step b rest = some (b, rest) := by
  unfold utf8Step
  exact if_pos h

/-- Reduction of `utf8Step` on a two-byte sequence. -/
theorem utf8Step_two (b c1 : Nat) (tl : Bytes) (hb : 0xC2 ≤ b ∧ b < 0xE0)
    (hc : 0x80 ≤ c1 ∧ c1 < 0xC0) :
    utf8Step b (c1 :: tl) = some ((b - 0xC0) * 64 + (c1 - 0x80), tl) := by
  unfold utf8Step
  rw [if_neg (by omega), if_neg (by omega), if_pos (by omega : b < 0xE0)]
  exact if_pos hc

/-- Reduction of `utf8Step` on a three-byte sequence. -/
theorem utf8Step_three (b c1 c2 : Nat) (tl : Bytes) (hb : 0xE0 ≤ b ∧ b < 0xF0)
    (hc1 : (if b = 0xE0 then 0xA0 else 0x80) ≤ c1 ∧ c1 < (if b = 0xED then 0xA0 else 0xC0))
    (hc2 : 0x80 ≤ c2 ∧ c2 < 0xC0) :
    utf8Step b (c1 :: c2 :: tl) =
      some ((b - 0xE0) * 4096 + (c1 - 0x80) * 64 + (c2 - 0x80), tl) := by
  unfold utf8Step
  rw [if_neg (by omega), if_neg (by omega), if_neg (by omega), if_pos (by omega : b < 0xF0)]
  exact if_pos ⟨hc1, hc2⟩

/-- Reduction of `utf8Step` on a four-byte sequence. -/
theorem utf8Step_four (b c1 c2 c3 : Nat) (tl : Bytes) (hb : 0xF0 ≤ b ∧ b < 0xF5)
    (hc1 : (if b = 0xF0 then 0x90 else 0x80) ≤ c1 ∧ c1 < (if b = 0xF4 then 0x90 else 0xC0))
    (hc2 : 0x80 ≤ c2 ∧ c2 < 0xC0) (hc3 : 0x80 ≤ c3 ∧ c3 < 0xC0) :
    utf8Step b (c1 :: c2 :: c3 :: tl) =
      some ((b - 0xF0) * 262144 + (c1 - 0x80) * 4096 + (c2 - 0x80) * 64 + (c3 - 0x80), tl) := by
  unfold utf8Step
  rw [if_neg (by omega), if_neg (by omega), if_neg (by omega), if_neg (by omega),
    if_pos (by omega : b < 0xF5)]
  exact if_pos ⟨hc1, hc2, hc3⟩

/-- Facts about a character's scalar value, unpacked for arithmetic. -/
theorem char_toNat_valid (c : Char) :
    c.toNat < 0xD800 ∨ (0xE000 ≤ c.toNat ∧ c.toNat < 0x110000) := by
  have h := c.valid
  rcases h with h | h
  · left
    exact h
  · right
    exact h

/-- One encoded character, followed by anything, steps back to its
scalar value and the remaining bytes. -/
theorem utf8Step_encodeChar (c : Char) (rest : Bytes) :
    ∃ b tl, utf8EncodeChar c ++ rest = b :: tl ∧ utf8Step b tl = some (c.toNat, rest) := by
  have hv := char_toNat_valid c
  by_cases h1 : c.toNat < 0x80
  · have henc : utf8EncodeChar c = [c.toNat] := by
      unfold utf8EncodeChar
      rw [if_pos h1]
    rw [henc]
    exact ⟨c.toNat, rest, rfl, utf8Step_one c.toNat rest h1⟩
  · by_cases h2 : c.toNat < 0x800
    · have henc : utf8EncodeChar c = [0xC0 + c.toNat / 64, 0x80 + c.toNat % 64] := by
        unfold utf8EncodeChar
        rw [if_neg h1, if_pos h2]
      rw [henc]
      refine ⟨_, _, rfl, ?_⟩
      simp only [List.append_eq, List.cons_append, List.nil_append]
      rw [utf8Step_two _ _ _ (by omega) (by omega)]
      have : (0xC0 + c.toNat / 64 - 0xC0) * 64 + (0x80 + c.toNat % 64 - 0x80) = c.toNat := by
        omega
      rw [this]
    · by_cases h3 : c.toNat < 0x10000
      · have henc : utf8EncodeChar c =
            [0xE0 + c.toNat / 4096, 0x80 + c.toNat / 64 % 64, 0x80 + c.toNat % 64] := by
          unfold utf8EncodeChar
          rw [if_neg h1, if_neg h2, if_pos h3]
        rw [henc]
        refine ⟨_, _, rfl, ?_⟩
        simp only [List.append_eq, List.cons_append, List.nil_append]
        rw [utf8Step_three _ _ _ _ (by omega) ?_ (by omega)]
        · have : (0xE0 + c.toNat / 4096 - 0xE0) * 4096 + (0x80 + c.toNat / 64 % 64 - 0x80) * 64 +
              (0x80 + c.toNat % 64 - 0x80) = c.toNat := by
            omega
          rw [this]
        · constructor
          · by_cases he : 0xE0 + c.toNat / 4096 = 0xE0
            · rw [if_pos he]
              omega
            · rw [if_neg he]
              omega
          · by_cases he : 0xE0 + c.toNat / 4096 = 0xED
            · rw [if_pos he]
              omega
            · rw [if_neg he]
              omega
      · have henc : utf8EncodeChar c =
            [0xF0 + c.toNat / 262144, 0x80 + c.toNat / 4096 % 64, 0x80 + c.toNat / 64 % 64,
              0x80 + c.toNat % 64] := by
          unfold utf8EncodeChar
          rw [if_neg h1, if_neg h2, if_neg h3]
        have hup : c.toNat < 0x110000 := by omega
        rw [henc]
        refine ⟨_, _, rfl, ?_⟩
        simp only [List.append_eq, List.cons_append, List.nil_append]
        rw [utf8Step_four _ _ _ _ _ (by omega) ?_ (by omega) (by omega)]
        · have : (0xF0 + c.toNat / 262144 - 0xF0) * 262144 +
              (0x80 + c.toNat / 4096 % 64 - 0x80) * 4096 + (0x80 + c.toNat / 64 % 64 - 0x80) * 64 +
              (0x80 + c.toNat % 64 - 0x80) = c.toNat := by
            omega
          rw [this]
        · constructor
          · by_cases he : 0xF0 + c.toNat / 262144 = 0xF0
            · rw [if_pos he]
              omega
            · rw [if_neg he]
              omega
          · by_cases he : 0xF0 + c.toNat / 262144 = 0xF4
            · rw [if_pos he]
              omega
            · rw [if_neg he]
              omega

/-- Each character encodes to at least one byte. -/
theorem utf8EncodeChar_length_pos (c : Char) : 0 < (utf8EncodeChar c).length := by
  unfold utf8EncodeChar
  by_cases h1 : c.toNat < 0x80
  · simp [h1]
  · by_cases h2 : c.toNat < 0x800
    · simp [h1, h2]
    · by_cases h3 : c.toNat < 0x10000
      · simp [h1, h2, h3]
      · simp [h1, h2, h3]

/-- Fuel-generic decoding of an encoded string. -/
theorem utf8DecodeAux_encode (s : List Char) :
    ∀ fuel, (utf8Encode s).length ≤ fuel →
      utf8DecodeAux fuel (utf8Encode s) = some s := by
  induction s with
  | nil =>
    intro fuel _
    cases fuel <;> rfl
  | cons c cs ih =>
    intro fuel hfuel
    obtain ⟨b, tl, heq, hstep⟩ := utf8Step_encodeChar c (utf8Encode cs)
    have henc : utf8Encode (c :: cs) = utf8EncodeChar c ++ utf8Encode cs := rfl
    have hlenc := utf8EncodeChar_length_pos c
    have hlen : (utf8EncodeChar c).length + (utf8Encode cs).length = tl.length + 1 := by
      have := congrArg List.length heq
      simp [List.length_append] at this
      omega
    rw [henc, heq] at hfuel ⊢
    cases fuel with
    | zero => simp at hfuel
    | succ fuel =>
      show (match utf8Step b tl with
        | some (n, tl) => (utf8DecodeAux fuel tl).map (fun s => Char.ofNat n :: s)
        | none => none) = _
      rw [hstep]
      show (utf8DecodeAux fuel (utf8Encode cs)).map (fun s => Char.ofNat c.toNat :: s) = _
      have hfuel2 : (utf8Encode cs).length ≤ fuel := by
        simp at hfuel
        omega
      rw [ih fuel hfuel2, Char.ofNat_toNat]
      rfl

/-- `String::from_utf8` inverts `str::as_bytes`. -/
theorem utf8Decode_encode (s : List Char) : utf8Decode (utf8Encode s) = some s :=
  utf8DecodeAux_encode s (utf8Encode s).length (le_refl _)

/-! ## Section 3: base64url (URL_SAFE_NO_PAD)

Model of the `base64` crate configuration used by `biscuit` for compact
JWS parts: URL-safe alphabet, no padding, canonical trailing bits. -/

/-- Value of one base64url symbol. -/
def b64Val (c : Char) : Option Nat :=
  if 65 ≤ c.toNat ∧ c.toNat ≤ 90 then some (c.toNat - 65)
  else if 97 ≤ c.toNat ∧ c.toNat ≤ 122 then some (c.toNat - 71)
  else if 48 ≤ c.toNat ∧ c.toNat ≤ 57 then some (c.toNat + 4)
  else if c = Char.ofNat 45 then some 62
  else if c = Char.ofNat 95 then some 63
  else none

/-- base64url decoding without padding: length 1 mod 4 is invalid, a
final chunk of 2 or 3 symbols yields 1 or 2 bytes, and nonzero unused
trailing bits are rejected. -/
def base64UrlDecode : List Char → Option Bytes
  | [] => some []
  | [_] => none
  | [a, b] =>
    match b64Val a, b64Val b with
    | some va, some vb =>
      if vb % 16 = 0 then some [va * 4 + vb / 16] else none
    | _, _ => none
  | [a, b, c] =>
    match b64Val a, b64Val b, b64Val c with
    | some va, some vb, some vc =>
      if vc % 4 = 0 then some [va * 4 + vb / 16, vb % 16 * 16 + vc / 4] else none
    | _, _, _ => none
  | a :: b :: c :: d :: rest =>
    match b64Val a, b64Val b, b64Val c, b64Val d, base64UrlDecode rest with
    | some va, some vb, some vc, some vd, some r =>
      some ([va * 4 + vb / 16, vb % 16 * 16 + vc / 4, vc % 4 * 64 + vd] ++ r)
    | _, _, _, _, _ => none

/-! ## Section 4: JSON (serde_json)

A JSON parser over characters, used to model `serde_json` header
decoding. Numbers are restricted to integers: the transaction header
fields are integers, strings and arrays, and a float anywhere in a
header would fail `serde` field typing. -/

/-- JSON values. -/
inductive Json where
  | null
  | bool (b : Bool)
  | num (n : Int)
  | str (s : List Char)
  | arr (elems : List Json)
  | obj (fields : List (List Char × Json))
deriving Repr, Inhabited

/-- JSON whitespace. -/
def jsonWs (c : Char) : Bool :=
  c.toNat = 32 ∨ c.toNat = 9 ∨ c.toNat = 10 ∨ c.toNat = 13

/-- Skip leading whitespace. -/
def skipWs : List Char → List Char
  | [] => []
  | c :: rest => if jsonWs c then skipWs rest else c :: rest

/-- Hex digit value of a character (for string escapes). -/
def hexCharVal (c : Char) : Option Nat := hexVal c.toNat

/-- Parse the body of a JSON string after the opening quote, handling
escapes including surrogate pairs; the fuel bounds the loop. -/
def parseJsonString : Nat → List Char → Option (List Char × List Char)
  | 0, _ => none
  | _ + 1, [] => none
  | fuel + 1, c :: rest =>
    if c.toNat = 34 then some ([], rest)
    else if c.toNat < 32 then none
    else if c.toNat = 92 then
      match rest with
      | [] => none
      | e :: rest2 =>
        if e.toNat = 34 ∨ e.toNat = 92 ∨ e.toNat = 47 then
          (parseJsonString fuel rest2).map (fun p => (e :: p.1, p.2))
        else if e.toNat = 98 then
          (parseJsonString fuel rest2).map (fun p => (Char.ofNat 8 :: p.1, p.2))
        else if e.toNat = 102 then
          (parseJsonString fuel rest2).map (fun p => (Char.ofNat 12 :: p.1, p.2))
        else if e.toNat = 110 then
          (parseJsonString fuel rest2).map (fun p => (Char.ofNat 10 :: p.1, p.2))
        else if e.toNat = 114 then
          (parseJsonString fuel rest2).map (fun p => (Char.ofNat 13 :: p.1, p.2))
        else if e.toNat = 116 then
          (parseJsonString fuel rest2).map (fun p => (Char.ofNat 9 :: p.1, p.2))
        else if e.toNat = 117 then
          match rest2 with
          | h1 :: h2 :: h3 :: h4 :: rest3 =>
            match hexCharVal h1, hexCharVal h2, hexCharVal h3, hexCharVal h4 with
            | some v1, some v2, some v3, some v4 =>
              let v := v1 * 4096 + v2 * 256 + v3 * 16 + v4
              if 0xD800 ≤ v ∧ v < 0xDC00 then
                match rest3 with
                | b1 :: u :: g1 :: g2 :: g3 :: g4 :: rest4 =>
                  if b1.toNat = 92 ∧ u.toNat = 117 then
                    match hexCharVal g1, hexCharVal g2, hexCharVal g3, hexCharVal g4 with
                    | some w1, some w2, some w3, some w4 =>
                      let w := w1 * 4096 + w2 * 256 + w3 * 16 + w4
                      if 0xDC00 ≤ w ∧ w < 0xE000 then
                        (parseJsonString fuel rest4).map (fun p =>
                          (Char.ofNat (0x10000 + (v - 0xD800) * 1024 + (w - 0xDC00)) :: p.1, p.2))
                      else none
                    | _, _, _, _ => none
                  else none
                | _ => none
              else if 0xDC00 ≤ v ∧ v < 0xE000 then none
              else (parseJsonString fuel rest3).map (fun p => (Char.ofNat v :: p.1, p.2))
            | _, _, _, _ => none
          | _ => none
        else none
    else (parseJsonString fuel rest).map (fun p => (c :: p.1, p.2))

/-- Parse an unsigned decimal digit run. -/
def parseDigits : List Char → Option (Nat × Nat × List Char)
  | [] => none
  | c :: rest =>
    if 48 ≤ c.toNat ∧ c.toNat ≤ 57 then
      match parseDigits rest with
      | some (n, k, rest2) => some ((c.toNat - 48) * 10 ^ k + n, k + 1, rest2)
      | none => some (c.toNat - 48, 1, rest)
    else none

/-- Parse a JSON integer (optional minus sign, no leading zeros, and no
fraction or exponent: those would be floats, unsupported here). -/
def parseJsonInt (s : List Char) : Option (Int × List Char) :=
  let (neg, s1) := match s with
    | c :: rest => if c.toNat = 45 then (true, rest) else (false, s)
    | [] => (false, s)
  match parseDigits s1 with
  | some (n, k, rest) =>
    let leadZero : Bool := match s1 with
      | c :: _ => c.toNat == 48 && k > 1
      | [] => false
    if leadZero then none
    else
      match rest with
      | c :: _ =>
        if c.toNat = 46 ∨ c.toNat = 101 ∨ c.toNat = 69 then none
        else some (if neg then -(n : Int) else (n : Int), rest)
      | [] => some (if neg then -(n : Int) else (n : Int), rest)
  | none => none

/-- Check that the input starts with the given keyword and return the
remainder. -/
def parseKeyword : List Char → List Char → Option (List Char)
  | [], s => some s
  | k :: ks, c :: rest => if c = k then parseKeyword ks rest else none
  | _ :: _, [] => none

/-- Parse a comma-separated list of array elements up to the closing
bracket, given a parser for one value. -/
def parseArrayElems (pv : List Char → Option (Json × List Char)) :
    Nat → List Char → Option (List Json × List Char)
  | 0, _ => none
  | fuel + 1, s =>
    match pv s with
    | some (v, rest) =>
      match skipWs rest with
      | c :: rest2 =>
        if c.toNat = 44 then
          (parseArrayElems pv fuel rest2).map (fun p => (v :: p.1, p.2))
        else if c.toNat = 93 then some ([v], rest2)
        else none
      | [] => none
    | none => none

/-- Parse a comma-separated list of object members up to the closing
brace, given a parser for one value. -/
def parseObjFields (pv : List Char → Option (Json × List Char)) :
    Nat → List Char → Option (List (List Char × Json) × List Char)
  | 0, _ => none
  | fuel + 1, s =>
    match skipWs s with
    | q :: rest =>
      if q.toNat = 34 then
        match parseJsonString (rest.length + 1) rest with
        | some (key, rest2) =>
          match skipWs rest2 with
          | c :: rest3 =>
            if c.toNat = 58 then
              match pv rest3 with
              | some (v, rest4) =>
                match skipWs rest4 with
                | c2 :: rest5 =>
                  if c2.toNat = 44 then
                    (parseObjFields pv fuel rest5).map (fun p => ((key, v) :: p.1, p.2))
                  else if c2.toNat = 125 then some ([(key, v)], rest5)
                  else none
                | [] => none
              | none => none
            else none
          | [] => none
        | none => none
      else none
    | [] => none

/-- Parse one JSON value; the fuel bounds nesting and list length. -/
def parseJsonValue : Nat → List Char → Option (Json × List Char)
  | 0, _ => none
  | fuel + 1, s =>
    match skipWs s with
    | [] => none
    | c :: rest =>
      if c.toNat = 34 then
        (parseJsonString (rest.length + 1) rest).map (fun p => (Json.str p.1, p.2))
      else if c.toNat = 123 then
        match skipWs rest with
        | c2 :: rest2 =>
          if c2.toNat = 125 then some (Json.obj [], rest2)
          else
            (parseObjFields (parseJsonValue fuel) (rest.length + 1) rest).map (fun p =>
              (Json.obj p.1, p.2))
        | [] => none
      else if c.toNat = 91 then
        match skipWs rest with
        | c2 :: rest2 =>
          if c2.toNat = 93 then some (Json.arr [], rest2)
          else
            (parseArrayElems (parseJsonValue fuel) (rest.length + 1) rest).map (fun p =>
              (Json.arr p.1, p.2))
        | [] => none
      else if c.toNat = 116 then
        (parseKeyword [Char.ofNat 114, Char.ofNat 117, Char.ofNat 101] rest).map (fun r =>
          (Json.bool true, r))
      else if c.toNat = 102 then
        (parseKeyword [Char.ofNat 97, Char.ofNat 108, Char.ofNat 115, Char.ofNat 101] rest).map
          (fun r => (Json.bool false, r))
      else if c.toNat = 110 then
        (parseKeyword [Char.ofNat 117, Char.ofNat 108, Char.ofNat 108] rest).map (fun r =>
          (Json.null, r))
      else
        (parseJsonInt (c :: rest)).map (fun p => (Json.num p.1, p.2))

/-- Top-level JSON document parse: one value, then only trailing
whitespace. -/
def jsonParse (s : List Char) : Option Json :=
  match parseJsonValue (s.length + 1) s with
  | some (v, rest) => if skipWs rest = [] then some v else none
  | none => none

/-- First value bound to a key in a JSON object. -/
def jsonLookup (fields : List (List Char × Json)) (key : List Char) : Option Json :=
  match fields with
  | [] => none
  | (k, v) :: rest => if k = key then some v else jsonLookup rest key

/-! ## Section 5: JWS header and the transaction codec
(src/network/transaction.rs) -/

/-- `biscuit::jwa::SignatureAlgorithm`. -/
inductive SigAlg where
  | noneAlg
  | HS256 | HS384 | HS512
  | RS256 | RS384 | RS512
  | ES256 | ES384 | ES512
  | PS256 | PS384 | PS512
deriving DecidableEq, Repr, Inhabited

/-- The serde names of `SignatureAlgorithm` variants. -/
def algFromStr (s : List Char) : Option SigAlg :=
  if s = "none".data then some .noneAlg
  else if s = "HS256".data then some .HS256
  else if s = "HS384".data then some .HS384
  else if s = "HS512".data then some .HS512
  else if s = "RS256".data then some .RS256
  else if s = "RS384".data then some .RS384
  else if s = "RS512".data then some .RS512
  else if s = "ES256".data then some .ES256
  else if s = "ES384".data then some .ES384
  else if s = "ES512".data then some .ES512
  else if s = "PS256".data then some .PS256
  else if s = "PS384".data then some .PS384
  else if s = "PS512".data then some .PS512
  else none

/-- The algorithm whitelist checked by `parse_transaction`. -/
def algAllowed (a : SigAlg) : Bool :=
  match a with
  | .ES256 | .ES384 | .ES512 | .PS256 | .PS384 | .PS512 => true
  | _ => false

/-- The algorithm-family parameters of a JWK
(`biscuit::jwk::AlgorithmParameters`), with the key material decoded
from base64url. -/
inductive KeyParams where
  | rsa (n e : Bytes)
  | ec (crv : List Char) (x y : Bytes)
  | oct (k : Bytes)
deriving DecidableEq, Repr

/-- A public key (`JWK<Empty>` from the `biscuit` crate): the key id of
its common parameters plus the algorithm parameters. Common fields other
than `kid` are not consulted by this program and are omitted. -/
structure Key where
  key_id : Option (List Char)
  params : KeyParams
deriving DecidableEq, Repr

/-- Optional string member of a JSON object: absent is fine, a
non-string value is a type error. -/
def optStrField (fields : List (List Char × Json)) (key : List Char) :
    Option (Option (List Char)) :=
  match jsonLookup fields key with
  | Option.none => some Option.none
  | some (.str s) => some (some s)
  | some _ => none

/-- Required base64url-encoded string member of a JSON object
(`Base64urlUInt` / key material fields of a JWK). -/
def b64Field (fields : List (List Char × Json)) (key : List Char) : Option Bytes :=
  match jsonLookup fields key with
  | some (.str s) => base64UrlDecode s
  | _ => none

/-- The elliptic curves `biscuit` can deserialize in a JWK. -/
def knownCurve (crv : List Char) : Bool :=
  crv = "P-256".data ∨ crv = "P-384".data ∨ crv = "P-521".data ∨ crv = "secp256k1".data

/-- Deserialization of a `JWK<Empty>` from its JSON value: `kty` selects
the parameter family, the key material fields are required base64url
strings, `kid` is optional. -/
def parseJWK (j : Json) : Option Key :=
  match j with
  | .obj fields =>
    match optStrField fields "kid".data with
    | some kid =>
      (match jsonLookup fields "kty".data with
      | some (.str kty) =>
        if kty = "EC".data then
          match optStrField fields "crv".data, b64Field fields "x".data,
              b64Field fields "y".data with
          | some (some crv), some x, some y =>
            if knownCurve crv then some ⟨kid, .ec crv x y⟩ else none
          | _, _, _ => none
        else if kty = "RSA".data then
          match b64Field fields "n".data, b64Field fields "e".data with
          | some n, some e => some ⟨kid, .rsa n e⟩
          | _, _ => none
        else if kty = "oct".data then
          match b64Field fields "k".data with
          | some k => some ⟨kid, .oct k⟩
          | _ => none
        else none
      | _ => none)
    | none => none
  | _ => none

/-- The decoded JWS protected header: `biscuit::jws::Header` with the
registered JOSE fields this program reads plus the private
`TransactionHeader` fields `ver`, `sigt` and `prevs`. -/
structure TxHeader where
  algorithm : SigAlg
  content_type : Option (List Char)
  key_id : Option (List Char)
  web_key : Option Key
  version : Nat
  sign_time : Int
  previous : List (List Char)
deriving DecidableEq, Repr

/-- Required list-of-strings member (the `prevs` header field). -/
def strListField (j : Json) : Option (List (List Char)) :=
  match j with
  | .arr elems =>
    elems.foldr (fun e acc =>
      match e, acc with
      | .str s, some r => some (s :: r)
      | _, _ => none) (some [])
  | _ => none

/-- Deserialization of the protected header from its JSON object:
`alg`, `ver`, `sigt` and `prevs` are required, `cty`, `kid` and `jwk`
are optional. Unknown members are ignored. -/
def decodeHeader (j : Json) : Option TxHeader :=
  match j with
  | .obj fields =>
    match jsonLookup fields "alg".data with
    | some (.str algStr) =>
      match algFromStr algStr with
      | some alg =>
        match optStrField fields "cty".data, optStrField fields "kid".data with
        | some cty, some kid =>
          (match jsonLookup fields "jwk".data with
          | Option.none => some Option.none
          | some jv => (parseJWK jv).map some) |>.bind (fun jwk =>
          match jsonLookup fields "ver".data, jsonLookup fields "sigt".data,
              jsonLookup fields "prevs".data with
          | some (.num v), some (.num sigt), some prevsJson =>
            if 0 ≤ v then
              (strListField prevsJson).map (fun prevs =>
                ⟨alg, cty, kid, jwk, v.toNat, sigt, prevs⟩)
            else none
          | _, _, _ => none)
        | _, _ => none
      | none => none
    | _ => none
  | _ => none

/-- Errors of the transaction codec, by kind
(`ParseError` in src/network/transaction.rs, split by cause). -/
inductive TxErr where
  | badCompact
  | badBase64
  | badUtf8
  | badJson
  | badHeader
  | badHash
  | unsupportedAlgorithm
  | missingPayloadType
  | missingKeyId
  | missingKeyOrKeyId
deriving DecidableEq, Repr

/-- Decidable equality for `Except` results, used to evaluate the
codec on concrete inputs. -/
instance {e a : Type} [DecidableEq e] [DecidableEq a] : DecidableEq (Except e a) := fun x y =>
  match x, y with
  | .ok v, .ok w =>
    if h : v = w then isTrue (by rw [h]) else isFalse (fun hh => h (Except.ok.inj hh))
  | .ok _, .error _ => isFalse (fun hh => Except.noConfusion hh)
  | .error _, .ok _ => isFalse (fun hh => Except.noConfusion hh)
  | .error v, .error w =>
    if h : v = w then isTrue (by rw [h]) else isFalse (fun hh => h (Except.error.inj hh))

/-- Option-to-Except with a fixed error. -/
def reqE {α : Type} (o : Option α) (e : TxErr) : Except TxErr α :=
  match o with
  | some a => .ok a
  | none => .error e

/-- Model of `str::split` on the dot character. -/
def splitOnDot : List Char → List (List Char)
  | [] => [[]]
  | c :: rest =>
    match splitOnDot rest with
    | h :: t => if c.toNat = 46 then [] :: h :: t else (c :: h) :: t
    | [] => if c.toNat = 46 then [[], []] else [[c]]

/-- A parsed transaction (struct `Transaction`). `sign_at` keeps the
`sigt` value as seconds since the epoch (`NaiveDateTime::from_timestamp`
with zero nanoseconds). -/
structure Transaction where
  id : Hash
  data : Bytes
  prevs : List Hash
  payload : Hash
  payload_type : List Char
  version : Nat
  key : Option Key
  key_id : List Char
  sign_at : Int
  sign_algo : SigAlg
deriving DecidableEq, Repr

/-- A transaction is a root transaction iff it has no previous
transactions. -/
def Transaction.is_root (tx : Transaction) : Bool := tx.prevs.isEmpty

/-- `Compact::new_encoded` plus `unverified_header` and
`unverified_payload` from the `biscuit` crate: split the raw string on
dots, base64url-decode part 0 into the JSON header, base64url-decode
part 1 into the payload bytes. -/
def unverifiedParts (raw : List Char) : Except TxErr (TxHeader × Bytes) :=
  let parts := splitOnDot raw
  match parts.get? 0 with
  | some h64 =>
    match base64UrlDecode h64 with
    | some hb =>
      match utf8Decode hb with
      | some hc =>
        match jsonParse hc with
        | some j =>
          match decodeHeader j with
          | some hdr =>
            match parts.get? 1 with
            | some p64 =>
              match base64UrlDecode p64 with
              | some payload => .ok (hdr, payload)
              | none => .error .badBase64
            | none => .error .badCompact
          | none => .error .badHeader
        | none => .error .badJson
      | none => .error .badUtf8
    | none => .error .badBase64
  | none => .error .badCompact

/-- `parse_key` from src/network/transaction.rs: an embedded `jwk` wins,
its `kid` falling back to the header `kid`; without a `jwk` the header
`kid` is required. -/
def parse_key (hdr : TxHeader) : Except TxErr (Option Key × List Char) :=
  match hdr.web_key with
  | some key =>
    match key.key_id with
    | some kid => .ok (some key, kid)
    | none =>
      match hdr.key_id with
      | some kid => .ok (some key, kid)
      | none => .error .missingKeyId
  | none =>
    match hdr.key_id with
    | some kid => .ok (none, kid)
    | none => .error .missingKeyOrKeyId

/-- Hex-decoding of the `prevs` header entries, first failure wins. -/
def parsePrevs : List (List Char) → Except TxErr (List Hash)
  | [] => .ok []
  | h :: rest =>
    match Hash.parse_hex (utf8Encode h) with
    | some hh => (parsePrevs rest).map (fun r => hh :: r)
    | none => .error .badHash

/-- `parse_transaction` from src/network/transaction.rs, preserving the
order of the checks (each `match` on an error mirrors a Rust `?`):
payload hex first, then the algorithm whitelist, the payload type, the
key resolution and the parent hashes. -/
def parse_transaction (raw : List Char) (hdr : TxHeader) (payload : Bytes) :
    Except TxErr Transaction :=
  match Hash.parse_hex payload with
  | none => .error .badHash
  | some payloadHash =>
    if algAllowed hdr.algorithm then
      match hdr.content_type with
      | none => .error .missingPayloadType
      | some payload_type =>
        match parse_key hdr with
        | .error e => .error e
        | .ok kk =>
          match parsePrevs hdr.previous with
          | .error e => .error e
          | .ok prevs =>
            .ok { id := Hash.new (utf8Encode raw), data := utf8Encode raw, prevs := prevs,
                  payload := payloadHash, payload_type := payload_type,
                  version := hdr.version, key := kk.1, key_id := kk.2,
                  sign_at := hdr.sign_time, sign_algo := hdr.algorithm }
    else .error .unsupportedAlgorithm

/-- `Transaction::parse_unsafe`: decode the compact parts, then build
the transaction, without verifying the signature. -/
def Transaction.parse_unsafe (raw : List Char) : Except TxErr Transaction :=
  match unverifiedParts raw with
  | .ok hp => parse_transaction raw hp.1 hp.2
  | .error e => .error e

/-! ## Section 6: the sled tree model

A sled tree is an ordered map from byte-string keys to values; `iter`
yields entries in ascending key order. The entries list is kept sorted
by key; `insert` overwrites an existing key. -/

/-- Strict lexicographic order on byte strings (the sled key order). -/
def bytesLt : Bytes → Bytes → Bool
  | [], [] => false
  | [], _ :: _ => true
  | _ :: _, [] => false
  | a :: as1, b :: bs1 => if a < b then true else if b < a then false else bytesLt as1 bs1

/-- An open sled tree with values of type `v`. -/
structure SledTree (v : Type) where
  entries : List (Bytes × v)
deriving DecidableEq, Repr

/-- Insertion into the key-sorted entry list, overwriting on an equal
key. -/
def insertSorted {v : Type} (k : Bytes) (val : v) : List (Bytes × v) → List (Bytes × v)
  | [] => [(k, val)]
  | (k2, v2) :: rest =>
    if bytesLt k k2 then (k, val) :: (k2, v2) :: rest
    else if k = k2 then (k, val) :: rest
    else (k2, v2) :: insertSorted k val rest

/-- `Tree::insert`. -/
def SledTree.insert {v : Type} (t : SledTree v) (k : Bytes) (val : v) : SledTree v :=
  ⟨insertSorted k val t.entries⟩

/-- Key lookup in the entry list. -/
def lookupKey {v : Type} : List (Bytes × v) → Bytes → Option v
  | [], _ => none
  | (k2, v2) :: rest, k => if k = k2 then some v2 else lookupKey rest k

/-- `Tree::get`. -/
def SledTree.get {v : Type} (t : SledTree v) (k : Bytes) : Option v := lookupKey t.entries k

/-- `Tree::contains_key`. -/
def SledTree.containsKey {v : Type} (t : SledTree v) (k : Bytes) : Bool := (t.get k).isSome

/-- The empty tree. -/
def SledTree.empty {v : Type} : SledTree v := ⟨[]⟩

/-! ## Section 7: KeyStore (src/pki.rs)

The `nuts/keys` tree maps UTF-8 key-id bytes to MessagePack-encoded
JWKs. The `rmp_serde` encoding of a JWK is an external codec that
round-trips; it is modelled as the identity, so tree values are `Key`
values directly. -/

/-- The sled tree name opened by every `KeyStore` operation. -/
def keysTreeName : List Char := ("nuts/keys").data

/-- `KeyStore`: the backing tree plus the in-memory `JWKSet`. -/
structure KeyStore where
  tree : SledTree Key
  jwk_set : List Key
deriving DecidableEq, Repr

/-- `KeyStore::open`: scan the tree (in key order) and collect the
decoded keys, in scan order, into the in-memory list. -/
def KeyStore.openStore (tree : SledTree Key) : KeyStore :=
  ⟨tree, tree.entries.map (fun e => e.2)⟩

/-- `KeyStore::get`: point lookup, decoding the stored JWK. -/
def KeyStore.get (ks : KeyStore) (id : List Char) : Option Key :=
  ks.tree.get (utf8Encode id)

/-- `KeyStore::contains`. -/
def KeyStore.contains (ks : KeyStore) (id : List Char) : Bool :=
  ks.tree.containsKey (utf8Encode id)

/-- The error of a duplicate `KeyStore::add`. -/
inductive KsErr where
  | alreadyExists
deriving DecidableEq, Repr

/-- `KeyStore::add`: refuse an existing key id, otherwise persist and
push onto the in-memory list. -/
def KeyStore.add (ks : KeyStore) (id : List Char) (key : Key) : Except KsErr KeyStore :=
  if ks.tree.containsKey (utf8Encode id) then .error .alreadyExists
  else .ok ⟨ks.tree.insert (utf8Encode id) key, ks.jwk_set ++ [key]⟩

/-- `KeyStore::as_ref`: the in-memory JWK set. -/
def KeyStore.as_jwk_set (ks : KeyStore) : List Key := ks.jwk_set

/-! ## Section 9: handshake metadata (src/network/server.rs)

Only the decision logic of `parse_metadata` and the protocol-version
gate of `connect_to_peer` are modelled; transport, channels and task
spawning are outside the embedding. -/

/-- gRPC response metadata, restricted to the two headers the code
reads. -/
structure Metadata where
  peerid : Option (List Char)
  version : Option (List Char)
deriving DecidableEq, Repr

/-- Model of `Uuid::parse_str` on the simple (32 hex digits) and
hyphenated (8-4-4-4-12) forms; hex digits of either case are accepted.
The uuid crate also accepts urn and braced forms, which no peer of this
program emits; they are omitted. -/
def uuidParse (s : List Char) : Option Bytes :=
  if s.length = 32 then hexDecode (s.map Char.toNat)
  else if s.length = 36 then
    if s.get? 8 = some (Char.ofNat 45) ∧ s.get? 13 = some (Char.ofNat 45) ∧
        s.get? 18 = some (Char.ofNat 45) ∧ s.get? 23 = some (Char.ofNat 45) then
      hexDecode (((s.take 8) ++ ((s.drop 9).take 4) ++ ((s.drop 14).take 4) ++
        ((s.drop 19).take 4) ++ (s.drop 24)).map Char.toNat)
    else none
  else none

/-- Session-setup errors. -/
inductive NetErr where
  | missingPeerId
  | missingVersion
  | badPeerId
  | unsupportedProtocolVersion
deriving DecidableEq, Repr

/-- `Server::new` hard-codes strict mode off. -/
def serverStrictDefault : Bool := false

/-- `Server::parse_metadata`: `peerid` is required and parsed as a
UUID; when strict mode is off the version is returned as "1" without
consulting the metadata; when strict mode is on the `version` header is
required and returned as sent. -/
def parse_metadata (strict : Bool) (md : Metadata) : Except NetErr (Bytes × List Char) :=
  match md.peerid with
  | none => .error .missingPeerId
  | some pid =>
    if !strict then
      match uuidParse pid with
      | some u => .ok (u, ("1").data)
      | none => .error .badPeerId
    else
      match md.version with
      | none => .error .missingVersion
      | some v =>
        match uuidParse pid with
        | some u => .ok (u, v)
        | none => .error .badPeerId

/-- The metadata-decision part of `Server::connect_to_peer`: parse the
response metadata, then reject any version other than "1". On success
the session task is started for the returned peer. -/
def connect_handshake (strict : Bool) (md : Metadata) : Except NetErr Bytes :=
  match parse_metadata strict md with
  | .error e => .error e
  | .ok pv =>
    if pv.2 ≠ ("1").data then .error .unsupportedProtocolVersion
    else .ok pv.1

/-! ## Section 8: the DAG and the Graph store (src/network/graph.rs)

`daggy::Dag<Transaction, Transaction>` is a node list (the node index is
the position, assigned at insertion) plus a directed edge list; edge
weights are unused. `walk_recursive` applies a predicate to each node of
a pre-order depth-first walk from an index and returns the first hit; it
is modelled as the pre-order index sequence, over which `find` takes the
first match and `to_vec` collects every node. The petgraph child walker
yields children newest-edge-first, hence the `reverse`. -/

/-- The in-memory DAG. -/
structure Dag where
  nodes : List Transaction
  edges : List (Nat × Nat)
deriving DecidableEq, Repr

/-- `dag.node_weight(idx)`. -/
def nodeAt (d : Dag) (i : Nat) : Option Transaction := d.nodes.get? i

/-- `dag.children(idx)`: targets of outgoing edges, newest first. -/
def childrenOf (d : Dag) (i : Nat) : List Nat :=
  ((d.edges.filter (fun e => e.1 = i)).map (fun e => e.2)).reverse

/-- The pre-order index sequence of `walk_recursive`: the index itself
when a node lives there, then the walks of its children. Fuel bounds the
recursion depth; every edge of a reachable graph points from an older to
a newer node, so depth never exceeds the node count. -/
def walkAux (d : Dag) : Nat → Nat → List Nat
  | 0, _ => []
  | fuel + 1, i =>
    (if i < d.nodes.length then [i] else []) ++
      (childrenOf d i).flatMap (fun j => walkAux d fuel j)

/-- The pre-order walk from node index 0. -/
def Dag.walk (d : Dag) : List Nat := walkAux d (d.nodes.length + 1) 0

/-- `Graph::root` on the in-memory structure: the node at index 0. -/
def Dag.rootTx (d : Dag) : Option Transaction := nodeAt d 0

/-- `Graph::find` on the in-memory structure: nothing without a root,
else the first walked index whose transaction has the wanted id. -/
def Dag.findIdx (d : Dag) (id : Hash) : Option Nat :=
  match d.rootTx with
  | some _ =>
    d.walk.find? (fun i =>
      match nodeAt d i with
      | some tx => tx.id = id
      | none => false)
  | none => none

/-- `Graph::to_vec` on the in-memory structure: every walked
transaction in visit order. -/
def Dag.toVec (d : Dag) : List Transaction := d.walk.filterMap (nodeAt d)

/-- Errors of `Graph::add` / `Graph::add_local`, by kind. -/
inductive GraphErr where
  | duplicateTransaction
  | rootAlreadyPresent
  | missingParent (id : Hash)
  | badUtf8
deriving DecidableEq, Repr

/-- The find loop over `tx.prevs`: all parents must be present, first
missing one wins. -/
def findPrevIdxs (d : Dag) : List Hash → Except GraphErr (List Nat)
  | [] => .ok []
  | id :: rest =>
    match d.findIdx id with
    | some i => (findPrevIdxs d rest).map (fun r => i :: r)
    | none => .error (.missingParent id)

/-- `Graph::add_local`: duplicate check, root rules, parent presence;
the one recorded edge runs from the last listed parent to the new node.
`extend_with_edges` cannot cycle here because the target node is new, so
it is modelled as always succeeding. -/
def Dag.add_local (d : Dag) (tx : Transaction) : Except GraphErr (Dag × Nat) :=
  if (d.findIdx tx.id).isSome then .error .duplicateTransaction
  else if tx.is_root then
    if d.rootTx.isSome then .error .rootAlreadyPresent
    else .ok (⟨d.nodes ++ [tx], d.edges⟩, d.nodes.length)
  else
    match findPrevIdxs d tx.prevs with
    | .error e => .error e
    | .ok prevIdxs =>
      match prevIdxs.getLast? with
      | some p => .ok (⟨d.nodes ++ [tx], d.edges ++ [(p, d.nodes.length)]⟩, d.nodes.length)
      | none => .error .duplicateTransaction
          -- unreachable: a non-root transaction has at least one
          -- parent, so the found index list is nonempty (Rust unwraps).

/-- An on-disk graph record (struct `Node` in src/network/graph.rs). -/
structure Node where
  idx : Nat
  tx_id : Hash
  tx_data : List Char
deriving DecidableEq, Repr

/-- Little-endian u32 bytes (bincode fixed-int encoding). -/
def u32LE (n : Nat) : Bytes := [n % 256, n / 256 % 256, n / 65536 % 256, n / 16777216 % 256]

/-- Little-endian u64 bytes (bincode length prefix). -/
def u64LE (n : Nat) : Bytes :=
  [n % 256, n / 256 % 256, n / 65536 % 256, n / 16777216 % 256,
   n / 4294967296 % 256, n / 1099511627776 % 256, n / 281474976710656 % 256,
   n / 72057594037927936 % 256]

/-- `bincode::serialize` of a `Node` (legacy bincode configuration:
fixed-size little-endian integers, u64 string length prefix, the
`[u8; 32]` of the hash written raw). -/
def bincodeEncodeNode (nd : Node) : Bytes :=
  u32LE nd.idx ++ nd.tx_id.bytes ++ u64LE (utf8Encode nd.tx_data).length ++ utf8Encode nd.tx_data

/-- `bincode::deserialize` of a `Node`: u32 index, 32 hash bytes, u64
length, UTF-8 string bytes. Trailing bytes are ignored, as by
`bincode::deserialize`. -/
def bincodeDecodeNode (bs : Bytes) : Option Node :=
  match bs with
  | b0 :: b1 :: b2 :: b3 :: rest =>
    if rest.length < 32 then none
    else
      let idx := b0 + b1 * 256 + b2 * 65536 + b3 * 16777216
      let tx_id := rest.take 32
      match rest.drop 32 with
      | l0 :: l1 :: l2 :: l3 :: l4 :: l5 :: l6 :: l7 :: rest3 =>
        let len := l0 + l1 * 256 + l2 * 65536 + l3 * 16777216 + l4 * 4294967296 +
          l5 * 1099511627776 + l6 * 281474976710656 + l7 * 72057594037927936
        if rest3.length < len then none
        else
          match utf8Decode (rest3.take len) with
          | some s => some ⟨idx, ⟨tx_id⟩, s⟩
          | none => none
      | _ => none
  | _ => none

/-- The sled tree name opened by `Graph::open` and `Graph::add`. -/
def dagTreeName : List Char := ("nuts/dag").data

/-- `Graph`: the backing tree (raw record bytes) plus the in-memory
DAG. -/
structure Graph where
  tree : SledTree Bytes
  dag : Dag
deriving DecidableEq, Repr

/-- The graph over an empty store. -/
def Graph.emptyGraph : Graph := ⟨SledTree.empty, ⟨[], []⟩⟩

/-- Errors of `Graph::open`, by kind. -/
inductive OpenErr where
  | badRecord
  | badTx (e : TxErr)
  | addFailed (e : GraphErr)
deriving DecidableEq, Repr

/-- Record decoding pass of `Graph::open`: each value is a bincode
`Node` whose `tx_data` re-parses via `parse_unsafe`. -/
def decodeRecords : List (Bytes × Bytes) → Except OpenErr (List (Nat × Transaction))
  | [] => .ok []
  | (_, v) :: rest =>
    match bincodeDecodeNode v with
    | some nd =>
      match Transaction.parse_unsafe nd.tx_data with
      | .ok tx => (decodeRecords rest).map (fun r => (nd.idx, tx) :: r)
      | .error e => .error (.badTx e)
    | none => .error .badRecord

/-- Replay pass of `Graph::open`: insert each transaction through
`add_local`. -/
def addAllLocal (d : Dag) : List Transaction → Except GraphErr Dag
  | [] => .ok d
  | tx :: rest =>
    match d.add_local tx with
    | .ok di => addAllLocal di.1 rest
    | .error e => .error e

/-- `Graph::open`: scan the `nuts/dag` tree, decode and re-parse every
record, sort by ordinal ascending (`sort_unstable_by_key`; the ordinals
are distinct, so any sort yields the unique ascending order), and replay
through `add_local`. -/
def Graph.openGraph (tree : SledTree Bytes) : Except OpenErr Graph :=
  match decodeRecords tree.entries with
  | .ok recs =>
    match addAllLocal ⟨[], []⟩ (((recs.mergeSort (fun a b => a.1 ≤ b.1)).map (fun r => r.2))) with
    | .ok d => .ok ⟨tree, d⟩
    | .error e => .error (.addFailed e)
  | .error e => .error e

/-- `Graph::add`: recover the UTF-8 data, insert in memory, then
persist the bincode record keyed by the raw 32 id bytes (the index is
truncated to u32 as by `idx.index() as u32`). -/
def Graph.add (g : Graph) (tx : Transaction) : Except GraphErr (Graph × Nat) :=
  match utf8Decode tx.data with
  | none => .error .badUtf8
  | some tx_data =>
    match g.dag.add_local tx with
    | .ok di =>
      .ok (⟨g.tree.insert tx.id.bytes (bincodeEncodeNode ⟨w32 di.2, tx.id, tx_data⟩), di.1⟩,
        di.2)
    | .error e => .error e

/-- `Graph::find`. -/
def Graph.find (g : Graph) (id : Hash) : Option Nat := g.dag.findIdx id

/-- `Graph::root`. -/
def Graph.root (g : Graph) : Option Transaction := g.dag.rootTx

/-- `Graph::to_vec`. -/
def Graph.to_vec (g : Graph) : List Transaction := g.dag.toVec

/-- Graph states reachable from the empty store by successful `add`
calls. -/
inductive Reachable : Graph → Prop where
  | empty : Reachable Graph.emptyGraph
  | step {g g2 tx idx} : Reachable g → g.add tx = .ok (g2, idx) → Reachable g2

/-! ## Hex codec lemmas (claim C9) -/

/-- Lowercasing of an ASCII hex digit byte: the relation between an
accepted input byte and the corresponding displayed byte. -/
def lowerHexByte (b : Nat) : Nat := if 65 ≤ b ∧ b ≤ 70 then b + 32 else b

/-- The character-set predicate used by claim C9: an ASCII lower-hex
digit. -/
def isLowerHexDigit (b : Nat) : Bool :=
  (48 ≤ b ∧ b ≤ 57) ∨ (97 ≤ b ∧ b ≤ 102)

/-- An accepted hex byte decodes to at most 15 and re-encodes to its
lowercase form. -/
theorem hexVal_digit (b v : Nat) (h : hexVal b = some v) :
    v ≤ 15 ∧ hexDigit v = lowerHexByte b := by
  unfold hexVal at h
  split at h
  · injection h with hv
    refine ⟨by omega, ?_⟩
    unfold hexDigit lowerHexByte
    split_ifs <;> omega
  · split at h
    · injection h with hv
      refine ⟨by omega, ?_⟩
      unfold hexDigit lowerHexByte
      split_ifs <;> omega
    · split at h
      · injection h with hv
        refine ⟨by omega, ?_⟩
        unfold hexDigit lowerHexByte
        split_ifs <;> omega
      · exact absurd h (by simp)

/-- A successful `hex::decode` halves the length, and re-encoding
yields the lowercased input. -/
theorem hexDecode_spec : ∀ (s r : Bytes), hexDecode s = some r →
    s.length = 2 * r.length ∧ hexEncode r = s.map lowerHexByte
  | [], r, h => by
    simp only [hexDecode, Option.some.injEq] at h
    subst h
    simp [hexEncode]
  | [b], r, h => by
    simp [hexDecode] at h
  | a :: b :: rest, r, h => by
    simp only [hexDecode] at h
    match hva : hexVal a, hvb : hexVal b, hdr : hexDecode rest with
    | some x, some y, some r2 =>
      rw [hva, hvb, hdr] at h
      simp only [Option.some.injEq] at h
      subst h
      obtain ⟨hlen, henc⟩ := hexDecode_spec rest r2 hdr
      obtain ⟨hx15, hxd⟩ := hexVal_digit a x hva
      obtain ⟨hy15, hyd⟩ := hexVal_digit b y hvb
      constructor
      · simp only [List.length_cons]
        omega
      · show hexDigit ((x * 16 + y) / 16) :: hexDigit ((x * 16 + y) % 16) :: hexEncode r2 = _
        have h1 : (x * 16 + y) / 16 = x := by omega
        have h2 : (x * 16 + y) % 16 = y := by omega
        rw [h1, h2, hxd, hyd, henc]
        rfl
    | some _, some _, none =>
      rw [hva, hvb, hdr] at h
      simp at h
    | some _, none, _ =>
      rw [hva, hvb] at h
      simp at h
    | none, _, _ =>
      rw [hva] at h
      simp at h

/-- `hex::decode` succeeds exactly on even-length all-hex-digit
inputs. -/
theorem hexDecode_isSome : ∀ (s : Bytes),
    (hexDecode s).isSome ↔ s.length % 2 = 0 ∧ ∀ b ∈ s, (hexVal b).isSome
  | [] => by simp [hexDecode]
  | [b] => by simp [hexDecode]
  | a :: b :: rest => by
    have ih := hexDecode_isSome rest
    simp only [hexDecode]
    constructor
    · intro h
      match hva : hexVal a, hvb : hexVal b, hdr : hexDecode rest with
      | some x, some y, some r2 =>
        have hrest := ih.mp (by rw [hdr]; rfl)
        refine ⟨by simp only [List.length_cons]; omega, ?_⟩
        intro c hc
        simp only [List.mem_cons] at hc
        rcases hc with rfl | rfl | hc
        · rw [hva]; rfl
        · rw [hvb]; rfl
        · exact hrest.2 c hc
      | some _, some _, none => rw [hva, hvb, hdr] at h; simp at h
      | some _, none, _ => rw [hva, hvb] at h; simp at h
      | none, _, _ => rw [hva] at h; simp at h
    · intro ⟨hlen, hall⟩
      have hva := hall a (by simp)
      have hvb := hall b (by simp)
      have hrest : (hexDecode rest).isSome := by
        refine ih.mpr ⟨by simp only [List.length_cons] at hlen; omega, ?_⟩
        intro c hc
        exact hall c (by simp [hc])
      match ha : hexVal a, hb : hexVal b, hr : hexDecode rest with
      | some x, some y, some r2 => rfl
      | some _, some _, none => rw [hr] at hrest; simp at hrest
      | some _, none, _ => rw [hb] at hvb; simp at hvb
      | none, _, _ => rw [ha] at hva; simp at hva

/-! ## Sled tree lemmas -/

/-- Lookup after inserting the same key. -/
theorem lookupKey_insertSorted_self {v : Type} (k : Bytes) (val : v) :
    ∀ (l : List (Bytes × v)), lookupKey (insertSorted k val l) k = some val
  | [] => by simp [insertSorted, lookupKey]
  | (k2, v2) :: rest => by
    unfold insertSorted
    split
    · simp [lookupKey]
    · split
      · simp [lookupKey]
      · unfold lookupKey
        split
        · contradiction
        · exact lookupKey_insertSorted_self k val rest

/-- A key is absent exactly when no entry carries it. -/
theorem lookupKey_none {v : Type} : ∀ (l : List (Bytes × v)) (k : Bytes),
    lookupKey l k = none ↔ ∀ e ∈ l, e.1 ≠ k
  | [], k => by simp [lookupKey]
  | (k2, v2) :: rest, k => by
    unfold lookupKey
    split
    · simp_all
    · rw [lookupKey_none rest k]
      constructor
      · intro h e he
        rcases List.mem_cons.mp he with rfl | he2
        · intro hh
          simp at hh
          exact absurd hh.symm (by assumption)
        · exact h e he2
      · intro h e he
        exact h e (List.mem_cons_of_mem _ he)

/-- Inserting a fresh key is, up to order, consing the new entry. -/
theorem insertSorted_perm_fresh {v : Type} (k : Bytes) (val : v) :
    ∀ (l : List (Bytes × v)), (∀ e ∈ l, e.1 ≠ k) →
      (insertSorted k val l).Perm ((k, val) :: l)
  | [], _ => by simp [insertSorted]
  | (k2, v2) :: rest, hfresh => by
    unfold insertSorted
    split
    · exact List.Perm.refl _
    · split
      · exfalso
        have hk : k = k2 := by assumption
        exact hfresh (k2, v2) (by simp) hk.symm
      · refine List.Perm.trans (List.Perm.cons _ (insertSorted_perm_fresh k val rest ?_))
          (List.Perm.swap _ _ _)
        intro e he
        exact hfresh e (List.mem_cons_of_mem _ he)

/-- Transitivity of the sled key order. -/
theorem bytesLt_trans : ∀ (a b c : Bytes), bytesLt a b = true → bytesLt b c = true →
    bytesLt a c = true
  | [], [], _, hab, _ => by simp [bytesLt] at hab
  | [], _ :: _, [], _, hbc => by simp [bytesLt] at hbc
  | [], _ :: _, _ :: _, _, _ => by simp [bytesLt]
  | _ :: _, [], _, hab, _ => by simp [bytesLt] at hab
  | _ :: _, _ :: _, [], _, hbc => by simp [bytesLt] at hbc
  | a :: as1, b :: bs1, c :: cs1, hab, hbc => by
    simp only [bytesLt] at hab hbc ⊢
    by_cases h1 : a < b
    · by_cases h2 : b < c
      · rw [if_pos (by omega)]
      · rw [if_neg h2] at hbc
        by_cases h3 : c < b
        · rw [if_pos h3] at hbc
          simp at hbc
        · rw [if_neg h3] at hbc
          rw [if_pos (by omega)]
    · rw [if_neg h1] at hab
      by_cases h1b : b < a
      · rw [if_pos h1b] at hab
        simp at hab
      · rw [if_neg h1b] at hab
        by_cases h2 : b < c
        · rw [if_pos (by omega)]
        · rw [if_neg h2] at hbc
          by_cases h3 : c < b
          · rw [if_pos h3] at hbc
            simp at hbc
          · rw [if_neg h3] at hbc
            rw [if_neg (by omega), if_neg (by omega)]
            exact bytesLt_trans as1 bs1 cs1 hab hbc

/-- Totality of the sled key order on distinct keys. -/
theorem bytesLt_total : ∀ (a b : Bytes), a ≠ b →
    bytesLt a b = true ∨ bytesLt b a = true
  | [], [], h => absurd rfl h
  | [], _ :: _, _ => by simp [bytesLt]
  | _ :: _, [], _ => by simp [bytesLt]
  | a :: as1, b :: bs1, h => by
    by_cases hab : a = b
    · subst hab
      have htl : as1 ≠ bs1 := by
        intro he
        exact h (by rw [he])
      rcases bytesLt_total as1 bs1 htl with h2 | h2
      · left
        simp only [bytesLt]
        rw [if_neg (by omega), if_neg (by omega)]
        exact h2
      · right
        simp only [bytesLt]
        rw [if_neg (by omega), if_neg (by omega)]
        exact h2
    · rcases Nat.lt_or_ge a b with h2 | h2
      · left
        simp only [bytesLt]
        rw [if_pos h2]
      · right
        simp only [bytesLt]
        rw [if_pos (by omega)]

/-- Inserting a fresh key preserves strict key-sortedness. -/
theorem insertSorted_sorted {v : Type} (k : Bytes) (val : v) :
    ∀ (l : List (Bytes × v)), (∀ e ∈ l, e.1 ≠ k) →
      List.Pairwise (fun a b => bytesLt a.1 b.1 = true) l →
      List.Pairwise (fun a b => bytesLt a.1 b.1 = true) (insertSorted k val l)
  | [], _, _ => by simp [insertSorted]
  | (k2, v2) :: rest, hfresh, hsort => by
    unfold insertSorted
    have hpw := List.pairwise_cons.mp hsort
    split
    · refine List.pairwise_cons.mpr ⟨?_, hsort⟩
      intro e he
      rcases List.mem_cons.mp he with rfl | he2
      · assumption
      · exact bytesLt_trans _ _ _ (by assumption) (hpw.1 e he2)
    · split
      · exfalso
        have hk : k = k2 := by assumption
        exact hfresh (k2, v2) (by simp) hk.symm
      · refine List.pairwise_cons.mpr ⟨?_, ?_⟩
        · intro e he
          have hperm := insertSorted_perm_fresh k val rest
            (fun e2 he2 => hfresh e2 (List.mem_cons_of_mem _ he2))
          have he3 := hperm.mem_iff.mp he
          rcases List.mem_cons.mp he3 with rfl | he4
          · show bytesLt k2 k = true
            have hne : k2 ≠ k := hfresh (k2, v2) (by simp)
            rcases bytesLt_total k2 k hne with h2 | h2
            · exact h2
            · exact absurd h2 (by assumption)
          · exact hpw.1 e he4
        · exact insertSorted_sorted k val rest
            (fun e2 he2 => hfresh e2 (List.mem_cons_of_mem _ he2)) hpw.2

/-! ## Claim C9: Hash::parse_hex character set -/

/-- Characterization of `Hash::parse_hex`: hex-decode then require 32
bytes. -/
theorem parse_hex_char (s : Bytes) : Hash.parse_hex s =
    match hexDecode s with
    | some r => if r.length = 32 then some ⟨r⟩ else none
    | none => none := by
  unfold Hash.parse_hex Hash.parse to_fixed
  match hd : hexDecode s with
  | some r =>
    simp only [Option.some_bind]
    split
    · simp
    · simp
  | none => rfl

/-- Claim C9 (corrected): `Hash::parse_hex` succeeds exactly on inputs
of 64 ASCII hex digits of either case (the `hex` crate also accepts
A-F), and the display form is the lowercased input. Inputs of any other
length are rejected. -/
theorem claimC9 (s : Bytes) :
    ((Hash.parse_hex s).isSome ↔ (s.length = 64 ∧ ∀ b ∈ s, (hexVal b).isSome)) ∧
    (∀ h, Hash.parse_hex s = some h → Hash.display h = s.map lowerHexByte) := by
  have hch := parse_hex_char s
  constructor
  · constructor
    · intro h
      rw [hch] at h
      match hd : hexDecode s with
      | some r =>
        rw [hd] at h
        have h2 : (if r.length = 32 then some (⟨r⟩ : Hash) else none).isSome = true := h
        obtain ⟨hlen, _⟩ := hexDecode_spec s r hd
        split at h2
        · have hr32 : r.length = 32 := by assumption
          refine ⟨by omega, ?_⟩
          exact ((hexDecode_isSome s).mp (by rw [hd]; rfl)).2
        · simp at h2
      | none =>
        rw [hd] at h
        simp at h
    · intro ⟨h64, hall⟩
      rw [hch]
      have hsome : (hexDecode s).isSome := (hexDecode_isSome s).mpr ⟨by omega, hall⟩
      match hd : hexDecode s with
      | some r =>
        obtain ⟨hlen, _⟩ := hexDecode_spec s r hd
        have hr32 : r.length = 32 := by omega
        show (if r.length = 32 then some (⟨r⟩ : Hash) else none).isSome = true
        rw [if_pos hr32]
        rfl
      | none =>
        rw [hd] at hsome
        simp at hsome
  · intro h hp
    rw [hch] at hp
    match hd : hexDecode s with
    | some r =>
      rw [hd] at hp
      have hp2 : (if r.length = 32 then some (⟨r⟩ : Hash) else none) = some h := hp
      split at hp2
      · injection hp2 with hp2
        subst hp2
        exact (hexDecode_spec s r hd).2
      · simp at hp2
    | none =>
      rw [hd] at hp
      exact Option.noConfusion hp

/-- Witness for C9: 64 lower-hex zeros parse to the zero hash, whose
display form is again the 64 zeros. -/
theorem claimC9_witness :
    Hash.parse_hex (List.replicate 64 48) = some ⟨List.replicate 32 0⟩ ∧
    Hash.display ⟨List.replicate 32 0⟩ = (List.replicate 64 48).map lowerHexByte :=
  ⟨by decide, (claimC9 (List.replicate 64 48)).2 ⟨List.replicate 32 0⟩ (by decide)⟩

/-- Counterexample to C9 as stated: 64 uppercase hex digits are
accepted by `Hash::parse_hex` although they are not lower-hex, and the
display form differs from the input. -/
theorem claimC9_counterexample :
    (Hash.parse_hex (List.replicate 64 65)).isSome = true ∧
    ¬ (∀ b ∈ (List.replicate 64 65 : Bytes), isLowerHexDigit b = true) ∧
    (Hash.parse_hex (List.replicate 64 65)).map Hash.display ≠
      some (List.replicate 64 65) := by
  refine ⟨by decide, by decide, by decide⟩

/-! ## Claim C5: KeyStore insert-once -/

/-- Claim C5: after a successful `KeyStore::add`, a second `add` with
the same id fails with AlreadyExists; `get` still returns the first
key. The embedding is state-passing, so the error case returns no new
store: the failed call leaves both the tree and the in-memory list as
they were. -/
theorem claimC5 (ks ks2 : KeyStore) (id : List Char) (k1 k2 : Key)
    (h : ks.add id k1 = .ok ks2) :
    ks2.add id k2 = .error .alreadyExists ∧
    ks2.get id = some k1 ∧
    ks2.tree = ks.tree.insert (utf8Encode id) k1 ∧
    ks2.as_jwk_set = ks.as_jwk_set ++ [k1] := by
  unfold KeyStore.add at h
  split at h
  · cases h
  · injection h with h
    subst h
    refine ⟨?_, ?_, rfl, rfl⟩
    · unfold KeyStore.add
      rw [if_pos ?_]
      show (SledTree.get _ _).isSome = true
      show (lookupKey (insertSorted (utf8Encode id) k1 ks.tree.entries) (utf8Encode id)).isSome
        = true
      rw [lookupKey_insertSorted_self]
      rfl
    · show lookupKey (insertSorted (utf8Encode id) k1 ks.tree.entries) (utf8Encode id) = some k1
      exact lookupKey_insertSorted_self _ _ _

/-- Two concrete octet keys used by the keystore witnesses. -/
def kOct1 : Key := ⟨none, KeyParams.oct [1]⟩

/-- A second concrete octet key, distinct from the first. -/
def kOct2 : Key := ⟨none, KeyParams.oct [2]⟩

/-- The store after adding `kOct1` under id "k". -/
def ksW : KeyStore := ⟨⟨[([107], kOct1)]⟩, [kOct1]⟩

/-- Witness for C5 at a concrete store. -/
theorem claimC5_witness :
    (KeyStore.openStore SledTree.empty).add (("k").data) kOct1 = .ok ksW ∧
    (ksW.add (("k").data) kOct2 = .error .alreadyExists ∧
     ksW.get (("k").data) = some kOct1 ∧
     ksW.tree = (KeyStore.openStore SledTree.empty).tree.insert (utf8Encode (("k").data)) kOct1 ∧
     ksW.as_jwk_set = (KeyStore.openStore SledTree.empty).as_jwk_set ++ [kOct1]) :=
  ⟨by decide, claimC5 (KeyStore.openStore SledTree.empty) ksW (("k").data) kOct1 kOct2
    (by decide)⟩

/-! ## Claim C6: KeyStore listing order -/

/-- A sequence of `KeyStore::add` calls, all of which must succeed. -/
def addChainKS : KeyStore → List (List Char × Key) → Option KeyStore
  | ks, [] => some ks
  | ks, (id, k) :: rest =>
    match ks.add id k with
    | .ok ks2 => addChainKS ks2 rest
    | .error _ => none

/-- Chain properties of successful keystore adds: the in-memory list
grows in insertion order; tree values stay a permutation of the list;
the tree stays strictly key-sorted. -/
theorem addChainKS_props : ∀ (ps : List (List Char × Key)) (ks0 ks : KeyStore),
    addChainKS ks0 ps = some ks →
    ks.jwk_set = ks0.jwk_set ++ ps.map (fun p => p.2) ∧
    ((ks0.tree.entries.map (fun e => e.2)).Perm ks0.jwk_set →
      (ks.tree.entries.map (fun e => e.2)).Perm ks.jwk_set) ∧
    (List.Pairwise (fun a b => bytesLt a.1 b.1 = true) ks0.tree.entries →
      List.Pairwise (fun a b => bytesLt a.1 b.1 = true) ks.tree.entries)
  | [], ks0, ks, h => by
    simp only [addChainKS, Option.some.injEq] at h
    subst h
    exact ⟨by simp, id, id⟩
  | (id, k) :: rest, ks0, ks, h => by
    simp only [addChainKS] at h
    match hadd : ks0.add id k with
    | .ok ks1 =>
      rw [hadd] at h
      obtain ⟨h1, h2, h3⟩ := addChainKS_props rest ks1 ks h
      unfold KeyStore.add at hadd
      split at hadd
      · cases hadd
      · injection hadd with hadd
        subst hadd
        have hfresh : ∀ e ∈ ks0.tree.entries, e.1 ≠ utf8Encode id := by
          rw [← lookupKey_none]
          have hc : ¬ (ks0.tree.containsKey (utf8Encode id) = true) := by assumption
          unfold SledTree.containsKey SledTree.get at hc
          match hl : lookupKey ks0.tree.entries (utf8Encode id) with
          | none => rfl
          | some _ => rw [hl] at hc; simp at hc
        refine ⟨by rw [h1]; simp, ?_, ?_⟩
        · intro hperm
          refine h2 ?_
          show ((insertSorted (utf8Encode id) k ks0.tree.entries).map (fun e => e.2)).Perm
            (ks0.jwk_set ++ [k])
          refine List.Perm.trans (List.Perm.map _
            (insertSorted_perm_fresh (utf8Encode id) k ks0.tree.entries hfresh)) ?_
          show (k :: ks0.tree.entries.map (fun e => e.2)).Perm (ks0.jwk_set ++ [k])
          refine List.Perm.trans (List.Perm.cons k hperm) ?_
          exact (List.perm_append_singleton k ks0.jwk_set).symm
        · intro hsort
          exact h3 (insertSorted_sorted (utf8Encode id) k ks0.tree.entries hfresh hsort)
    | .error e =>
      rw [hadd] at h
      cases h

/-- Claim C6 (corrected): a live store lists keys in insertion order;
after close and reopen the list is a permutation of the live one in
ascending key-byte order (the sled scan order), which agrees with
insertion order only when insertions happened in ascending id order. -/
theorem claimC6 (ps : List (List Char × Key)) (ks : KeyStore)
    (h : addChainKS (KeyStore.openStore SledTree.empty) ps = some ks) :
    ks.as_jwk_set = ps.map (fun p => p.2) ∧
    ((KeyStore.openStore ks.tree).as_jwk_set).Perm ks.as_jwk_set ∧
    List.Pairwise (fun a b => bytesLt a.1 b.1 = true) ks.tree.entries := by
  obtain ⟨h1, h2, h3⟩ := addChainKS_props ps (KeyStore.openStore SledTree.empty) ks h
  refine ⟨by unfold KeyStore.as_jwk_set; rw [h1]; rfl, ?_,
    h3 (by simp [KeyStore.openStore, SledTree.empty])⟩
  show (ks.tree.entries.map (fun e => e.2)).Perm ks.jwk_set
  exact h2 (by simp [KeyStore.openStore, SledTree.empty])

/-- The keystore after adding under "b" then "a". -/
def ksC6 : Option KeyStore :=
  addChainKS (KeyStore.openStore SledTree.empty) [((("b").data), kOct1), ((("a").data), kOct2)]

/-- Counterexample to C6 as stated: adding under id "b" then id "a"
lists `[kOct1, kOct2]` live, but the reopened store lists
`[kOct2, kOct1]` (ascending key order), so insertion order is not
preserved across close and reopen. -/
theorem claimC6_counterexample :
    (ksC6.map (fun ks => (KeyStore.openStore ks.tree).as_jwk_set)) = some [kOct2, kOct1] ∧
    (ksC6.map KeyStore.as_jwk_set) = some [kOct1, kOct2] ∧
    ([kOct2, kOct1] : List Key) ≠ [kOct1, kOct2] := by
  refine ⟨by decide, by decide, by decide⟩

/-- The keystore after one add under "b". -/
def ksW6 : KeyStore := ⟨⟨[([98], kOct1)]⟩, [kOct1]⟩

/-- Witness for C6 at a one-element chain. -/
theorem claimC6_witness :
    addChainKS (KeyStore.openStore SledTree.empty) [((("b").data), kOct1)] = some ksW6 ∧
    (ksW6.as_jwk_set = [((("b").data), kOct1)].map (fun p => p.2) ∧
     ((KeyStore.openStore ksW6.tree).as_jwk_set).Perm ksW6.as_jwk_set ∧
     List.Pairwise (fun a b => bytesLt a.1 b.1 = true) ksW6.tree.entries) :=
  ⟨by decide, claimC6 [((("b").data), kOct1)] ksW6 (by decide)⟩

/-! ## Claim C7: protocol version enforcement -/

/-- Claim C7 (corrected): in strict mode a present version other than
"1" makes `connect_to_peer` fail with UnsupportedProtocolVersion; in
non-strict mode `parse_metadata` ignores the version metadata entirely
and substitutes "1", so the handshake succeeds whatever version the
peer sent. -/
theorem claimC7 (md : Metadata) (pid v : List Char) (u : Bytes) :
    (md.peerid = some pid → uuidParse pid = some u → md.version = some v →
      v ≠ ("1").data → connect_handshake true md = .error .unsupportedProtocolVersion) ∧
    (md.peerid = some pid → uuidParse pid = some u →
      connect_handshake false md = .ok u) := by
  constructor
  · intro hp hu hv hne
    have hpm : parse_metadata true md = .ok (u, v) := by
      simp [parse_metadata, hp, hv, hu]
    unfold connect_handshake
    rw [hpm]
    show (if v ≠ ("1").data then (Except.error NetErr.unsupportedProtocolVersion : Except NetErr Bytes)
      else Except.ok u) = _
    rw [if_pos hne]
  · intro hp hu
    have hpm : parse_metadata false md = .ok (u, ("1").data) := by
      simp [parse_metadata, hp, hu]
    unfold connect_handshake
    rw [hpm]
    show (if ("1").data ≠ ("1").data then (Except.error NetErr.unsupportedProtocolVersion :
      Except NetErr Bytes) else Except.ok u) = _
    rw [if_neg (by simp)]

/-- The all-zero UUID string. -/
def uuidZ : List Char := ("00000000-0000-0000-0000-000000000000").data

/-- Handshake metadata carrying protocol version "2". -/
def mdC7 : Metadata := ⟨some uuidZ, some (("2").data)⟩

/-- Counterexample to C7 as stated: with the server's hard-coded
non-strict mode, a response carrying version "2" is accepted, not
rejected. -/
theorem claimC7_counterexample :
    (connect_handshake serverStrictDefault mdC7).toBool = true ∧
    mdC7.version = some (("2").data) ∧ ("2").data ≠ ("1").data := by
  refine ⟨by decide, by decide, by decide⟩

/-- Witness for C7 at the concrete metadata. -/
theorem claimC7_witness :
    (mdC7.peerid = some uuidZ ∧ uuidParse uuidZ = some (List.replicate 16 0) ∧
      mdC7.version = some (("2").data) ∧ ("2").data ≠ ("1").data) ∧
    connect_handshake true mdC7 = .error .unsupportedProtocolVersion ∧
    connect_handshake false mdC7 = .ok (List.replicate 16 0) :=
  ⟨⟨by decide, by decide, by decide, by decide⟩,
   (claimC7 mdC7 uuidZ (("2").data) (List.replicate 16 0)).1 (by decide) (by decide)
     (by decide) (by decide),
   (claimC7 mdC7 uuidZ (("2").data) (List.replicate 16 0)).2 (by decide) (by decide)⟩

/-! ## Claims C1 and C3: the transaction codec -/

/-- Field inversion of a successful `parse_transaction`: the data is
the raw bytes, the id their SHA-256, the algorithm the header's, and
the whitelist check passed. -/
theorem parse_transaction_fields (raw : List Char) (hdr : TxHeader) (payload : Bytes)
    (t : Transaction) (h : parse_transaction raw hdr payload = .ok t) :
    t.data = utf8Encode raw ∧ t.id = Hash.new (utf8Encode raw) ∧
    t.sign_algo = hdr.algorithm ∧ algAllowed hdr.algorithm = true := by
  unfold parse_transaction at h
  split at h
  · simp at h
  · split at h
    · split at h
      · simp at h
      · split at h
        · simp at h
        · split at h
          · simp at h
          · injection h with h
            subst h
            refine ⟨rfl, rfl, rfl, by assumption⟩
    · simp at h

/-- Claim C1: every parsed transaction is content-addressed (id is the
SHA-256 of its data), keeps the raw input verbatim as data, and
re-parsing the data (as a UTF-8 string, which always succeeds on it)
returns the identical transaction in every field. -/
theorem claimC1 (raw : List Char) (t : Transaction)
    (h : Transaction.parse_unsafe raw = .ok t) :
    t.id.bytes = sha256 t.data ∧
    t.data = utf8Encode raw ∧
    utf8Decode t.data = some raw ∧
    (∀ raw2, utf8Decode t.data = some raw2 → Transaction.parse_unsafe raw2 = .ok t) := by
  unfold Transaction.parse_unsafe at h
  split at h
  · rename_i hp heq
    obtain ⟨hdata, hid, _, _⟩ := parse_transaction_fields raw hp.1 hp.2 t h
    have hdec : utf8Decode t.data = some raw := by
      rw [hdata]
      exact utf8Decode_encode raw
    refine ⟨by rw [hid, hdata]; rfl, hdata, hdec, ?_⟩
    intro raw2 h2
    rw [hdec] at h2
    injection h2 with h2
    subst h2
    show Transaction.parse_unsafe raw = .ok t
    unfold Transaction.parse_unsafe
    rw [heq]
    exact h
  · simp at h

/-- The raw compact JWS used by the C1 witness. -/
def rawT1 : List Char :=
  ("eyJhbGciOiJFUzI1NiIsImN0eSI6ImEiLCJraWQiOiJrMSIsInZlciI6MSwic2lndCI6MCwicHJldnMiOltdfQ.MGEwYTBhMGEwYTBhMGEwYTBhMGEwYTBhMGEwYTBhMGEwYTBhMGEwYTBhMGEwYTBhMGEwYTBhMGEwYTBhMGEwYQ.AA").data

/-- The transaction parsed from `rawT1`. -/
def txT1 : Transaction :=
  { id := ⟨[208, 22, 92, 86, 192, 246, 69, 155, 67, 104, 74, 108, 156, 6, 169, 120, 192, 36,
      79, 125, 118, 194, 168, 201, 130, 100, 196, 84, 95, 116, 37, 82]⟩,
    data := utf8Encode rawT1,
    prevs := [],
    payload := ⟨List.replicate 32 10⟩,
    payload_type := [Char.ofNat 97],
    version := 1,
    key := none,
    key_id := [Char.ofNat 107, Char.ofNat 49],
    sign_at := 0,
    sign_algo := SigAlg.ES256 }

set_option maxRecDepth 1000000 in
/-- Witness for C1: a concrete ES256 compact JWS parses to `txT1`,
whose fields satisfy all the C1 clauses. -/
theorem claimC1_witness :
    Transaction.parse_unsafe rawT1 = .ok txT1 ∧
    (txT1.id.bytes = sha256 txT1.data ∧
     txT1.data = utf8Encode rawT1 ∧
     utf8Decode txT1.data = some rawT1 ∧
     (∀ raw2, utf8Decode txT1.data = some raw2 → Transaction.parse_unsafe raw2 = .ok txT1)) := by
  have h : Transaction.parse_unsafe rawT1 = .ok txT1 := by decide
  exact ⟨h, claimC1 rawT1 txT1 h⟩

/-- Claim C3: every accepted transaction carries one of the six
whitelisted algorithms, and an input whose decoded header carries any
other algorithm is never parsed into a transaction; when its payload is
well-formed hex the error is precisely the unsupported-algorithm
validation error. -/
theorem claimC3 :
    (∀ (raw : List Char) (t : Transaction), Transaction.parse_unsafe raw = .ok t →
      algAllowed t.sign_algo = true ∧
      (t.sign_algo = .ES256 ∨ t.sign_algo = .ES384 ∨ t.sign_algo = .ES512 ∨
       t.sign_algo = .PS256 ∨ t.sign_algo = .PS384 ∨ t.sign_algo = .PS512)) ∧
    (∀ (raw : List Char) (hdr : TxHeader) (payload : Bytes),
      unverifiedParts raw = .ok (hdr, payload) → algAllowed hdr.algorithm = false →
      (∀ t, Transaction.parse_unsafe raw ≠ .ok t) ∧
      ((Hash.parse_hex payload).isSome = true →
        Transaction.parse_unsafe raw = .error .unsupportedAlgorithm)) := by
  constructor
  · intro raw t h
    unfold Transaction.parse_unsafe at h
    split at h
    · rename_i hp heq
      obtain ⟨_, _, halgo, hallow⟩ := parse_transaction_fields raw hp.1 hp.2 t h
      rw [halgo]
      refine ⟨hallow, ?_⟩
      unfold algAllowed at hallow
      match hm : hp.1.algorithm with
      | .ES256 => exact Or.inl rfl
      | .ES384 => exact Or.inr (Or.inl rfl)
      | .ES512 => exact Or.inr (Or.inr (Or.inl rfl))
      | .PS256 => exact Or.inr (Or.inr (Or.inr (Or.inl rfl)))
      | .PS384 => exact Or.inr (Or.inr (Or.inr (Or.inr (Or.inl rfl))))
      | .PS512 => exact Or.inr (Or.inr (Or.inr (Or.inr (Or.inr rfl))))
      | .noneAlg => rw [hm] at hallow; simp at hallow
      | .HS256 => rw [hm] at hallow; simp at hallow
      | .HS384 => rw [hm] at hallow; simp at hallow
      | .HS512 => rw [hm] at hallow; simp at hallow
      | .RS256 => rw [hm] at hallow; simp at hallow
      | .RS384 => rw [hm] at hallow; simp at hallow
      | .RS512 => rw [hm] at hallow; simp at hallow
    · simp at h
  · intro raw hdr payload hparts halg
    have hpu : Transaction.parse_unsafe raw = parse_transaction raw hdr payload := by
      unfold Transaction.parse_unsafe
      rw [hparts]
    have halg2 : ¬ (algAllowed hdr.algorithm = true) := by
      rw [halg]
      simp
    have key : (parse_transaction raw hdr payload = .error .badHash ∧
        Hash.parse_hex payload = none) ∨
        parse_transaction raw hdr payload = .error .unsupportedAlgorithm := by
      unfold parse_transaction
      match hph : Hash.parse_hex payload with
      | none => exact Or.inl ⟨rfl, rfl⟩
      | some ph => exact Or.inr (if_neg halg2)
    rcases key with ⟨herr, hnone⟩ | herr
    · refine ⟨?_, ?_⟩
      · intro t
        rw [hpu, herr]
        simp
      · intro hs
        rw [hnone] at hs
        simp at hs
    · refine ⟨?_, fun _ => by rw [hpu, herr]⟩
      intro t
      rw [hpu, herr]
      simp

/-- The raw compact JWS with algorithm HS256 used by the C3 witness. -/
def rawT3 : List Char :=
  ("eyJhbGciOiJIUzI1NiIsImN0eSI6ImEiLCJraWQiOiJrMSIsInZlciI6MSwic2lndCI6MCwicHJldnMiOltdfQ.MGEwYTBhMGEwYTBhMGEwYTBhMGEwYTBhMGEwYTBhMGEwYTBhMGEwYTBhMGEwYTBhMGEwYTBhMGEwYTBhMGEwYQ.AA").data

/-- The header decoded from `rawT3`. -/
def hdrT3 : TxHeader :=
  ⟨SigAlg.HS256, some [Char.ofNat 97], some [Char.ofNat 107, Char.ofNat 49], none, 1, 0, []⟩

/-- The payload bytes decoded from `rawT3`: the ASCII of 32 times
"0a". -/
def payloadT3 : Bytes := (List.replicate 32 [48, 97]).flatten

set_option maxRecDepth 1000000 in
/-- Witness for C3: the parsed `rawT1` satisfies the whitelist clause,
and the concrete HS256 input `rawT3` is rejected with the
unsupported-algorithm error. -/
theorem claimC3_witness :
    (Transaction.parse_unsafe rawT1 = .ok txT1 ∧
     algAllowed txT1.sign_algo = true) ∧
    (unverifiedParts rawT3 = .ok (hdrT3, payloadT3) ∧
     algAllowed hdrT3.algorithm = false ∧
     (Hash.parse_hex payloadT3).isSome = true ∧
     Transaction.parse_unsafe rawT3 = .error .unsupportedAlgorithm) := by
  have h1 : Transaction.parse_unsafe rawT1 = .ok txT1 := by decide
  have h3 : unverifiedParts rawT3 = .ok (hdrT3, payloadT3) := by decide
  refine ⟨⟨h1, (claimC3.1 rawT1 txT1 h1).1⟩, h3, rfl, by decide, ?_⟩
  exact (claimC3.2 rawT3 hdrT3 payloadT3 h3 rfl).2 (by decide)

/-! ## Walk lemmas (claims C2, C4, C10)

Shape facts about reachable DAGs: edge targets are exactly the indices
1 .. len-1 in order (each non-root node has exactly one incoming edge),
and every edge points from an older node to a newer one. Under these
facts the pre-order walk from index 0 visits every node exactly once. -/

/-- Edge shape: the targets, in edge order, are 1 .. len-1. -/
def edgeTargetsOk (d : Dag) : Prop :=
  d.edges.map (fun e => e.2) = List.range' 1 (d.nodes.length - 1)

/-- Edge shape: every edge points from an older to a newer node. -/
def edgeBoundOk (d : Dag) : Prop := ∀ e ∈ d.edges, e.1 < e.2

/-- Every child link runs upward into the node range. -/
theorem childrenOf_mem (d : Dag) (hT : edgeTargetsOk d) (hB : edgeBoundOk d) (i j : Nat)
    (hj : j ∈ childrenOf d i) : (i, j) ∈ d.edges ∧ i < j ∧ 1 ≤ j ∧ j < d.nodes.length := by
  unfold childrenOf at hj
  rw [List.mem_reverse, List.mem_map] at hj
  obtain ⟨e, he, hej⟩ := hj
  rw [List.mem_filter] at he
  obtain ⟨hee, hei⟩ := he
  have heq : e = (i, j) := by
    have h1 : e.1 = i := by
      have := hei
      simp at this
      exact this
    cases e
    simp_all
  subst heq
  refine ⟨hee, hB _ hee, ?_⟩
  have : j ∈ d.edges.map (fun e => e.2) := List.mem_map.mpr ⟨(i, j), hee, rfl⟩
  rw [hT, List.mem_range'] at this
  obtain ⟨k, hk, hkj⟩ := this
  omega

/-- Nodes at or beyond the length have no children. -/
theorem childrenOf_ge (d : Dag) (hT : edgeTargetsOk d) (hB : edgeBoundOk d) (i : Nat)
    (hi : d.nodes.length ≤ i) : childrenOf d i = [] := by
  unfold childrenOf
  rw [List.reverse_eq_nil_iff, List.map_eq_nil_iff, List.filter_eq_nil_iff]
  intro e he
  simp only [decide_eq_true_eq]
  intro hei
  have hmem : e.2 ∈ d.edges.map (fun e => e.2) := List.mem_map.mpr ⟨e, he, rfl⟩
  rw [hT, List.mem_range'] at hmem
  obtain ⟨k, hk, hkj⟩ := hmem
  have := hB e he
  omega

/-- Beyond the node range the walk is empty. -/
theorem walkAux_ge (d : Dag) (hT : edgeTargetsOk d) (hB : edgeBoundOk d) (i : Nat)
    (hi : d.nodes.length ≤ i) : ∀ fuel, walkAux d fuel i = [] := by
  intro fuel
  cases fuel with
  | zero => rfl
  | succ f =>
    unfold walkAux
    rw [if_neg (by omega), childrenOf_ge d hT hB i hi]
    rfl

/-- The walk is independent of the fuel once the fuel covers the
remaining node range. -/
theorem walkAux_fuel (d : Dag) (hT : edgeTargetsOk d) (hB : edgeBoundOk d) :
    ∀ (k i f1 f2 : Nat), d.nodes.length - i ≤ k → d.nodes.length - i ≤ f1 →
      d.nodes.length - i ≤ f2 → walkAux d f1 i = walkAux d f2 i := by
  intro k
  induction k with
  | zero =>
    intro i f1 f2 hk _ _
    rw [walkAux_ge d hT hB i (by omega), walkAux_ge d hT hB i (by omega)]
  | succ k ih =>
    intro i f1 f2 hk h1 h2
    by_cases hi : i < d.nodes.length
    · have hf1 : 0 < f1 := by omega
      have hf2 : 0 < f2 := by omega
      obtain ⟨a, rfl⟩ : ∃ a, f1 = a + 1 := ⟨f1 - 1, by omega⟩
      obtain ⟨b, rfl⟩ : ∃ b, f2 = b + 1 := ⟨f2 - 1, by omega⟩
      unfold walkAux
      congr 1
      have hmap : (childrenOf d i).map (fun j => walkAux d a j) =
          (childrenOf d i).map (fun j => walkAux d b j) := by
        refine List.map_congr_left ?_
        intro j hj
        obtain ⟨_, hij, _, hjlen⟩ := childrenOf_mem d hT hB i j hj
        exact ih j a b (by omega) (by omega) (by omega)
      rw [List.flatMap_def, List.flatMap_def, hmap]
    · rw [walkAux_ge d hT hB i (by omega), walkAux_ge d hT hB i (by omega)]

/-- Walk elements are node indices. -/
theorem walkAux_mem_lt (d : Dag) :
    ∀ (fuel i x : Nat), x ∈ walkAux d fuel i → x < d.nodes.length := by
  intro fuel
  induction fuel with
  | zero =>
    intro i x hx
    simp [walkAux] at hx
  | succ f ih =>
    intro i x hx
    unfold walkAux at hx
    rw [List.mem_append] at hx
    rcases hx with hx | hx
    · split at hx
      · simp at hx
        omega
      · simp at hx
    · rw [List.mem_flatMap] at hx
      obtain ⟨j, _, hxj⟩ := hx
      exact ih j x hxj

/-- Extension of a DAG by one leaf node hanging off parent `p`
(the in-memory effect of a non-root `add_local`). -/
def Dag.addLeaf (d : Dag) (tx : Transaction) (p : Nat) : Dag :=
  ⟨d.nodes ++ [tx], d.edges ++ [(p, d.nodes.length)]⟩

/-- The leaf extension has one more node. -/
theorem addLeaf_len (d : Dag) (tx : Transaction) (p : Nat) :
    (d.addLeaf tx p).nodes.length = d.nodes.length + 1 := by
  simp [Dag.addLeaf]

/-- Children after a leaf extension: the new node is prepended to the
parent's children (the petgraph walker yields the newest edge first). -/
theorem childrenOf_addLeaf (d : Dag) (tx : Transaction) (p i : Nat) :
    childrenOf (d.addLeaf tx p) i =
      (if i = p then [d.nodes.length] else []) ++ childrenOf d i := by
  unfold childrenOf Dag.addLeaf
  simp only [List.filter_append, List.map_append, List.reverse_append]
  congr 1
  by_cases hip : i = p
  · subst hip
    simp
  · simp only [List.filter_cons, List.filter_nil]
    rw [if_neg hip]
    have : ¬ (((p, d.nodes.length).1 = i) = True) := by
      simp
      omega
    simp only [decide_eq_true_eq]
    rw [if_neg (by simpa using fun hh => hip hh.symm)]
    rfl

/-- The walk of the new leaf is just the leaf. -/
theorem walkAux_addLeaf_self (d : Dag) (tx : Transaction) (p : Nat)
    (hT : edgeTargetsOk d) (hB : edgeBoundOk d) (hp : p < d.nodes.length) :
    ∀ f, 1 ≤ f → walkAux (d.addLeaf tx p) f d.nodes.length = [d.nodes.length] := by
  intro f hf
  obtain ⟨m, rfl⟩ : ∃ m, f = m + 1 := ⟨f - 1, by omega⟩
  unfold walkAux
  rw [if_pos (by rw [addLeaf_len]; omega), childrenOf_addLeaf]
  rw [if_neg (by omega), childrenOf_ge d hT hB _ (le_refl _)]
  rfl

/-- Count in a singleton list. -/
theorem count_single (x y : Nat) : List.count x [y] = if y = x then 1 else 0 := by
  simp [List.count_cons]

/-- A leaf extension keeps the edge-target shape. -/
theorem addLeaf_targets (d : Dag) (tx : Transaction) (p : Nat) (hT : edgeTargetsOk d)
    (hlen : 1 ≤ d.nodes.length) : edgeTargetsOk (d.addLeaf tx p) := by
  unfold edgeTargetsOk Dag.addLeaf at *
  simp only [List.map_append]
  rw [hT]
  have h1 : (d.nodes ++ [tx]).length = d.nodes.length + 1 := by simp
  rw [h1]
  have h2 : d.nodes.length + 1 - 1 = (d.nodes.length - 1) + 1 := by omega
  rw [h2, List.range'_concat]
  congr 1
  show List.map _ [(p, d.nodes.length)] = [1 + 1 * (d.nodes.length - 1)]
  simp
  omega

/-- A leaf extension keeps the edge bound. -/
theorem addLeaf_bound (d : Dag) (tx : Transaction) (p : Nat) (hB : edgeBoundOk d)
    (hp : p < d.nodes.length) : edgeBoundOk (d.addLeaf tx p) := by
  intro e he
  unfold Dag.addLeaf at he
  simp only at he
  rw [List.mem_append] at he
  rcases he with he | he
  · exact hB e he
  · simp at he
    subst he
    exact hp

/-- Counts of old indices are unchanged by a leaf extension. -/
theorem walkAux_addLeaf_count_old (d : Dag) (tx : Transaction) (p : Nat)
    (hT : edgeTargetsOk d) (hB : edgeBoundOk d) (hp : p < d.nodes.length)
    (x : Nat) (hx : x ≠ d.nodes.length) :
    ∀ (f i : Nat), i ≠ d.nodes.length → d.nodes.length - i + 1 ≤ f →
      (walkAux (d.addLeaf tx p) f i).count x = (walkAux d f i).count x := by
  intro f
  induction f with
  | zero =>
    intro i _ hf
    omega
  | succ m ih =>
    intro i hi hf
    by_cases hilt : i < d.nodes.length
    · unfold walkAux
      rw [childrenOf_addLeaf]
      rw [if_pos (by rw [addLeaf_len]; omega), if_pos hilt]
      rw [List.flatMap_append, List.count_append, List.count_append, List.count_append]
      have hb : (((if i = p then [d.nodes.length] else []) : List Nat).flatMap
          (fun j => walkAux (d.addLeaf tx p) m j)).count x = 0 := by
        by_cases hip : i = p
        · rw [if_pos hip]
          have hm1 : 1 ≤ m := by omega
          simp only [List.flatMap_cons, List.flatMap_nil, List.append_nil]
          rw [walkAux_addLeaf_self d tx p hT hB hp m hm1, count_single,
            if_neg (by omega)]
        · rw [if_neg hip]
          rfl
      have hc : ((childrenOf d i).flatMap (fun j => walkAux (d.addLeaf tx p) m j)).count x =
          ((childrenOf d i).flatMap (fun j => walkAux d m j)).count x := by
        rw [List.count_flatMap, List.count_flatMap]
        congr 1
        refine List.map_congr_left ?_
        intro j hj
        obtain ⟨_, hij, _, hjlen⟩ := childrenOf_mem d hT hB i j hj
        simp only [Function.comp_apply]
        exact ih j (by omega) (by omega)
      rw [hb, hc]
      omega
    · rw [walkAux_ge d hT hB i (by omega)]
      rw [walkAux_ge (d.addLeaf tx p) (addLeaf_targets d tx p hT (by omega))
        (addLeaf_bound d tx p hB hp) i (by rw [addLeaf_len]; omega)]

/-- The count of the new leaf equals the old count of its parent. -/
theorem walkAux_addLeaf_count_new (d : Dag) (tx : Transaction) (p : Nat)
    (hT : edgeTargetsOk d) (hB : edgeBoundOk d) (hp : p < d.nodes.length) :
    ∀ (f i : Nat), i ≠ d.nodes.length → d.nodes.length - i + 1 ≤ f →
      (walkAux (d.addLeaf tx p) f i).count d.nodes.length = (walkAux d f i).count p := by
  intro f
  induction f with
  | zero =>
    intro i _ hf
    omega
  | succ m ih =>
    intro i hi hf
    by_cases hilt : i < d.nodes.length
    · unfold walkAux
      rw [childrenOf_addLeaf]
      rw [if_pos (by rw [addLeaf_len]; omega), if_pos hilt]
      rw [List.flatMap_append, List.count_append, List.count_append, List.count_append]
      have hb : (((if i = p then [d.nodes.length] else []) : List Nat).flatMap
          (fun j => walkAux (d.addLeaf tx p) m j)).count d.nodes.length =
          if i = p then 1 else 0 := by
        by_cases hip : i = p
        · rw [if_pos hip, if_pos hip]
          have hm1 : 1 ≤ m := by omega
          simp only [List.flatMap_cons, List.flatMap_nil, List.append_nil]
          rw [walkAux_addLeaf_self d tx p hT hB hp m hm1, count_single, if_pos rfl]
        · rw [if_neg hip, if_neg hip]
          rfl
      have hc : ((childrenOf d i).flatMap (fun j => walkAux (d.addLeaf tx p) m j)).count
          d.nodes.length = ((childrenOf d i).flatMap (fun j => walkAux d m j)).count p := by
        rw [List.count_flatMap, List.count_flatMap]
        congr 1
        refine List.map_congr_left ?_
        intro j hj
        obtain ⟨_, hij, _, hjlen⟩ := childrenOf_mem d hT hB i j hj
        simp only [Function.comp_apply]
        exact ih j (by omega) (by omega)
      rw [hb, hc, count_single, count_single, if_neg (by omega)]
      by_cases hip : i = p
      · rw [if_pos hip]
        omega
      · rw [if_neg hip]
        omega
    · rw [walkAux_ge d hT hB i (by omega)]
      rw [walkAux_ge (d.addLeaf tx p) (addLeaf_targets d tx p hT (by omega))
        (addLeaf_bound d tx p hB hp) i (by rw [addLeaf_len]; omega)]
      simp

/-- The walk from the root enumerates every node index exactly once. -/
def walkCountOk (d : Dag) : Prop :=
  ∀ x, d.walk.count x = if x < d.nodes.length then 1 else 0

/-- The invariant of reachable in-memory DAGs: node 0 is the unique
root, each later node has exactly one incoming edge, which comes from
its last listed parent and from an older node, ids are unique, every
listed parent is stored, and the pre-order walk enumerates every node
exactly once. -/
structure DagInv (d : Dag) : Prop where
  rootAt0 : ∀ i tx, nodeAt d i = some tx → (tx.prevs = [] ↔ i = 0)
  targets : edgeTargetsOk d
  bound : edgeBoundOk d
  uniqIds : ∀ i j txi txj, nodeAt d i = some txi → nodeAt d j = some txj →
    txi.id = txj.id → i = j
  parentEdge : ∀ pq ∈ d.edges, ∃ txc txp, nodeAt d pq.2 = some txc ∧
    nodeAt d pq.1 = some txp ∧ txc.prevs.getLast? = some txp.id
  parentClosed : ∀ i txi, nodeAt d i = some txi → ∀ h ∈ txi.prevs,
    ∃ j txj, nodeAt d j = some txj ∧ txj.id = h
  walkCount : walkCountOk d

/-- Walk membership is exactly the node range. -/
theorem walk_mem_iff (d : Dag) (hwc : walkCountOk d) (x : Nat) :
    x ∈ d.walk ↔ x < d.nodes.length := by
  constructor
  · intro hx
    by_contra hge
    have h0 : d.walk.count x = 0 := by
      rw [hwc x, if_neg hge]
    rw [List.count_eq_zero] at h0
    exact h0 hx
  · intro hx
    by_contra hmem
    have h0 : d.walk.count x = 0 := List.count_eq_zero.mpr hmem
    rw [hwc x, if_pos hx] at h0
    exact Nat.noConfusion h0

/-- A find over a list with a unique match returns that match. -/
theorem find?_unique {α : Type} {p : α → Bool} :
    ∀ {l : List α} {a : α}, a ∈ l → p a = true →
      (∀ b ∈ l, p b = true → b = a) → l.find? p = some a
  | [], a, hmem, _, _ => absurd hmem (List.not_mem_nil a)
  | c :: cs, a, hmem, hp, huniq => by
    by_cases hc : p c = true
    · rw [List.find?_cons_of_pos _ hc]
      rw [huniq c (by simp) hc]
    · rw [List.find?_cons_of_neg _ hc]
      have hac : a ≠ c := by
        intro he
        rw [he] at hp
        exact hc hp
      have hmem2 : a ∈ cs := by
        rcases List.mem_cons.mp hmem with he | h2
        · exact absurd he hac
        · exact h2
      exact find?_unique hmem2 hp (fun b hb hpb => huniq b (List.mem_cons_of_mem _ hb) hpb)

/-- A stored index is below the length. -/
theorem nodeAt_lt (d : Dag) (i : Nat) (tx : Transaction) (h : nodeAt d i = some tx) :
    i < d.nodes.length := by
  by_contra hge
  unfold nodeAt at h
  rw [List.get?_eq_none.mpr (by omega)] at h
  exact Option.noConfusion h

/-- `find` locates every stored transaction at its own index. -/
theorem findIdx_complete (d : Dag) (hInv : DagInv d) (i : Nat) (tx : Transaction)
    (h : nodeAt d i = some tx) : d.findIdx tx.id = some i := by
  have hi : i < d.nodes.length := nodeAt_lt d i tx h
  unfold Dag.findIdx Dag.rootTx
  match hr : nodeAt d 0 with
  | none =>
    exfalso
    unfold nodeAt at hr
    rw [List.get?_eq_none] at hr
    omega
  | some r =>
    refine find?_unique ((walk_mem_iff d hInv.walkCount i).mpr hi) (by rw [h]; simp) ?_
    intro j hj hpj
    have hjlt : j < d.nodes.length := (walk_mem_iff d hInv.walkCount j).mp hj
    match hjn : nodeAt d j with
    | some txj =>
      rw [hjn] at hpj
      simp at hpj
      exact hInv.uniqIds j i txj tx hjn h hpj
    | none =>
      rw [hjn] at hpj
      simp at hpj

/-- What a successful `find` returns. -/
theorem findIdx_sound (d : Dag) (id : Hash) (i : Nat) (h : d.findIdx id = some i) :
    ∃ tx, nodeAt d i = some tx ∧ tx.id = id := by
  unfold Dag.findIdx Dag.rootTx at h
  match hr : nodeAt d 0 with
  | none =>
    rw [hr] at h
    exact Option.noConfusion h
  | some r =>
    rw [hr] at h
    have hp := List.find?_some h
    match hjn : nodeAt d i with
    | some tx =>
      rw [hjn] at hp
      simp at hp
      exact ⟨tx, rfl, hp⟩
    | none =>
      rw [hjn] at hp
      simp at hp

/-- Every index returned by the parent-find loop is a find result for
some listed hash. -/
theorem findPrevIdxs_mem (d : Dag) : ∀ (hs : List Hash) (is : List Nat),
    findPrevIdxs d hs = .ok is → ∀ i ∈ is, ∃ h, h ∈ hs ∧ d.findIdx h = some i
  | [], is, h => by
    simp only [findPrevIdxs] at h
    injection h with h
    subst h
    simp
  | hh :: rest, is, h => by
    unfold findPrevIdxs at h
    match hf : d.findIdx hh with
    | some i0 =>
      rw [hf] at h
      match hrec : findPrevIdxs d rest with
      | .ok r =>
        rw [hrec] at h
        injection h with h
        subst h
        intro i hi
        rcases List.mem_cons.mp hi with rfl | hir
        · exact ⟨hh, by simp, hf⟩
        · obtain ⟨h2, hmem, hfind⟩ := findPrevIdxs_mem d rest r hrec i hir
          exact ⟨h2, List.mem_cons_of_mem _ hmem, hfind⟩
      | .error e =>
        rw [hrec] at h
        exact Except.noConfusion h
    | none =>
      rw [hf] at h
      exact Except.noConfusion h

/-- Every listed hash is found by the parent-find loop. -/
theorem findPrevIdxs_forall (d : Dag) : ∀ (hs : List Hash) (is : List Nat),
    findPrevIdxs d hs = .ok is → ∀ h ∈ hs, ∃ i, d.findIdx h = some i
  | [], is, h => by simp
  | hh :: rest, is, h => by
    unfold findPrevIdxs at h
    match hf : d.findIdx hh with
    | some i0 =>
      rw [hf] at h
      match hrec : findPrevIdxs d rest with
      | .ok r =>
        intro h2 hmem
        rcases List.mem_cons.mp hmem with rfl | hmr
        · exact ⟨i0, hf⟩
        · exact findPrevIdxs_forall d rest r hrec h2 hmr
      | .error e =>
        rw [hrec] at h
        exact Except.noConfusion h
    | none =>
      rw [hf] at h
      exact Except.noConfusion h

/-- The parent-find loop preserves length. -/
theorem findPrevIdxs_len (d : Dag) : ∀ (hs : List Hash) (is : List Nat),
    findPrevIdxs d hs = .ok is → is.length = hs.length
  | [], is, h => by
    simp only [findPrevIdxs] at h
    injection h with h
    subst h
    rfl
  | hh :: rest, is, h => by
    unfold findPrevIdxs at h
    match hf : d.findIdx hh with
    | some i0 =>
      rw [hf] at h
      match hrec : findPrevIdxs d rest with
      | .ok r =>
        rw [hrec] at h
        injection h with h
        subst h
        simp [findPrevIdxs_len d rest r hrec]
      | .error e =>
        rw [hrec] at h
        exact Except.noConfusion h
    | none =>
      rw [hf] at h
      exact Except.noConfusion h

/-- The last found index is the find result of the last listed hash. -/
theorem findPrevIdxs_last (d : Dag) : ∀ (hs : List Hash) (is : List Nat),
    findPrevIdxs d hs = .ok is → ∀ p, is.getLast? = some p →
      ∃ h, hs.getLast? = some h ∧ d.findIdx h = some p
  | [], is, h => by
    simp only [findPrevIdxs] at h
    injection h with h
    subst h
    intro p hp
    exact Option.noConfusion hp
  | hh :: rest, is, h => by
    unfold findPrevIdxs at h
    match hf : d.findIdx hh with
    | some i0 =>
      rw [hf] at h
      match hrec : findPrevIdxs d rest with
      | .ok r =>
        rw [hrec] at h
        injection h with h
        subst h
        intro p hp
        simp only [] at hp
        cases rest with
        | nil =>
          have hr0 : r = [] := List.length_eq_zero.mp (by
            rw [findPrevIdxs_len d [] r hrec]
            rfl)
          subst hr0
          simp at hp
          subst hp
          exact ⟨hh, rfl, hf⟩
        | cons h2 rest2 =>
          have hrne : r ≠ [] := by
            intro he
            have hL := findPrevIdxs_len d (h2 :: rest2) r hrec
            rw [he] at hL
            simp at hL
          cases r with
          | nil => exact absurd rfl hrne
          | cons r0 rr =>
            rw [List.getLast?_cons_cons] at hp
            obtain ⟨h3, hlast, hfind⟩ := findPrevIdxs_last d (h2 :: rest2) (r0 :: rr) hrec p hp
            refine ⟨h3, ?_, hfind⟩
            rw [List.getLast?_cons_cons]
            exact hlast
      | .error e =>
        rw [hrec] at h
        exact Except.noConfusion h
    | none =>
      rw [hf] at h
      exact Except.noConfusion h

/-- Lookup in a list extended by one element. -/
theorem get?_append_single {α : Type} (l : List α) (a : α) (i : Nat) :
    (l ++ [a]).get? i =
      if i < l.length then l.get? i else if i = l.length then some a else none := by
  by_cases h1 : i < l.length
  · rw [if_pos h1, List.get?_append h1]
  · rw [if_neg h1, List.get?_append_right (by omega)]
    by_cases h2 : i = l.length
    · rw [if_pos h2]
      subst h2
      simp
    · rw [if_neg h2]
      rw [List.get?_eq_none.mpr (by simp; omega)]

/-- Inversion of a successful `add_local`. -/
theorem add_local_ok (d : Dag) (tx : Transaction) (d2 : Dag) (idx : Nat)
    (h : d.add_local tx = .ok (d2, idx)) :
    idx = d.nodes.length ∧ (d.findIdx tx.id).isSome = false ∧ d2.nodes = d.nodes ++ [tx] ∧
    ((tx.is_root = true ∧ d.rootTx.isSome = false ∧ d2.edges = d.edges) ∨
     (tx.is_root = false ∧ ∃ p prevIdxs, findPrevIdxs d tx.prevs = .ok prevIdxs ∧
        prevIdxs.getLast? = some p ∧ d2 = d.addLeaf tx p)) := by
  unfold Dag.add_local at h
  split at h
  · exact Except.noConfusion h
  · rename_i hdup
    split at h
    · rename_i hroot
      split at h
      · exact Except.noConfusion h
      · rename_i hnoroot
        injection h with h
        injection h with hd hidx
        subst hidx
        refine ⟨rfl, by simpa using hdup, by rw [← hd], Or.inl ⟨hroot, by simpa using hnoroot,
          by rw [← hd]⟩⟩
    · rename_i hnotroot
      split at h
      · exact Except.noConfusion h
      · rename_i prevIdxs hfp
        split at h
        · rename_i p hlast
          injection h with h
          injection h with hd hidx
          subst hidx
          refine ⟨rfl, by simpa using hdup, by rw [← hd], Or.inr ⟨by simpa using hnotroot,
            p, prevIdxs, hfp, hlast, by rw [← hd]; rfl⟩⟩
        · exact Except.noConfusion h

/-- A stored id makes `add_local` fail as a duplicate. -/
theorem add_local_dup (d : Dag) (tx : Transaction) (hInv : DagInv d)
    (hid : ∃ i txi, nodeAt d i = some txi ∧ txi.id = tx.id) :
    d.add_local tx = .error .duplicateTransaction := by
  obtain ⟨i, txi, hni, heq⟩ := hid
  have hfind := findIdx_complete d hInv i txi hni
  unfold Dag.add_local
  rw [if_pos ?_]
  rw [← heq, hfind]
  rfl

/-- A second root makes `add_local` fail. -/
theorem add_local_root_dup (d : Dag) (tx : Transaction)
    (hID : (d.findIdx tx.id).isSome = false) (hr : tx.is_root = true)
    (hroot : d.rootTx.isSome = true) :
    d.add_local tx = .error .rootAlreadyPresent := by
  unfold Dag.add_local
  rw [if_neg (by simp [hID]), if_pos hr, if_pos hroot]

/-- A missing listed parent makes the find loop fail with the first
missing hash. -/
theorem findPrevIdxs_missing (d : Dag) : ∀ (hs : List Hash),
    (∃ h ∈ hs, d.findIdx h = none) →
      ∃ h2 ∈ hs, findPrevIdxs d hs = .error (.missingParent h2) ∧ d.findIdx h2 = none
  | [], hmiss => by
    obtain ⟨h, hmem, _⟩ := hmiss
    exact absurd hmem (List.not_mem_nil h)
  | hh :: rest, hmiss => by
    unfold findPrevIdxs
    match hf : d.findIdx hh with
    | none => exact ⟨hh, by simp, rfl, hf⟩
    | some i0 =>
      have hmiss2 : ∃ h ∈ rest, d.findIdx h = none := by
        obtain ⟨h, hmem, hnone⟩ := hmiss
        rcases List.mem_cons.mp hmem with rfl | hmr
        · rw [hf] at hnone
          exact Option.noConfusion hnone
        · exact ⟨h, hmr, hnone⟩
      obtain ⟨h2, hmem2, herr, hnone2⟩ := findPrevIdxs_missing d rest hmiss2
      refine ⟨h2, List.mem_cons_of_mem _ hmem2, ?_, hnone2⟩
      rw [herr]
      rfl

/-- A missing parent makes `add_local` fail with MissingParent. -/
theorem add_local_missing (d : Dag) (tx : Transaction)
    (hID : (d.findIdx tx.id).isSome = false) (hnr : tx.is_root = false)
    (hmiss : ∃ h ∈ tx.prevs, d.findIdx h = none) :
    ∃ h2 ∈ tx.prevs, d.add_local tx = .error (.missingParent h2) := by
  obtain ⟨h2, hmem, herr, hnone⟩ := findPrevIdxs_missing d tx.prevs hmiss
  refine ⟨h2, hmem, ?_⟩
  unfold Dag.add_local
  rw [if_neg (by simp [hID]), if_neg (by simp [hnr]), herr]

/-- The singleton DAG created by the first (root) insertion satisfies
the invariant. -/
theorem dagInv_single (tx : Transaction) (hroot : tx.prevs = []) :
    DagInv ⟨[tx], []⟩ := by
  have hwalk : Dag.walk ⟨[tx], []⟩ = [0] := by
    show walkAux _ 2 0 = [0]
    unfold walkAux childrenOf
    simp
  refine ⟨?_, ?_, ?_, ?_, ?_, ?_, ?_⟩
  · intro i txi hni
    match i, hni with
    | 0, hni =>
      injection hni with hni
      subst hni
      simp [hroot]
  · show List.map _ [] = List.range' 1 (1 - 1)
    rfl
  · intro e he
    exact absurd he (List.not_mem_nil e)
  · intro i j txi txj hi hj _
    have h1 := nodeAt_lt _ i txi hi
    have h2 := nodeAt_lt _ j txj hj
    simp at h1 h2
    omega
  · intro pq hpq
    exact absurd hpq (List.not_mem_nil pq)
  · intro i txi hni h hmem
    match i, hni with
    | 0, hni =>
      injection hni with hni
      subst hni
      rw [hroot] at hmem
      exact absurd hmem (List.not_mem_nil h)
  · intro x
    rw [hwalk, count_single]
    show _ = if x < 1 then 1 else 0
    split_ifs <;> omega

/-- The main preservation step: a successful `add_local` keeps the DAG
invariant. -/
theorem add_local_inv (d : Dag) (tx : Transaction) (d2 : Dag) (idx : Nat) (hInv : DagInv d)
    (h : d.add_local tx = .ok (d2, idx)) : DagInv d2 := by
  obtain ⟨hidx, hdup, hnodes, hcase⟩ := add_local_ok d tx d2 idx h
  rcases hcase with ⟨hr, hnoroot, hedges⟩ | ⟨hnr, p, prevIdxs, hfp, hlast, hd2⟩
  · -- root insertion into the empty graph
    have hlen0 : d.nodes.length = 0 := by
      unfold Dag.rootTx nodeAt at hnoroot
      match hn : d.nodes.get? 0 with
      | some v => rw [hn] at hnoroot; simp at hnoroot
      | none =>
        rw [List.get?_eq_none] at hn
        omega
    have hnil : d.nodes = [] := List.length_eq_zero.mp hlen0
    have henil : d.edges = [] := by
      have ht := hInv.targets
      unfold edgeTargetsOk at ht
      rw [hlen0] at ht
      simpa using ht
    have hd2eq : d2 = ⟨[tx], []⟩ := by
      cases d2 with
      | mk n2 e2 =>
        simp at hnodes hedges
        rw [hnodes, hnil, hedges, henil]
        rfl
    rw [hd2eq]
    refine dagInv_single tx ?_
    unfold Transaction.is_root at hr
    exact List.isEmpty_iff.mp hr
  · -- non-root leaf extension
    obtain ⟨lh, hlh, hfindlh⟩ := findPrevIdxs_last d tx.prevs prevIdxs hfp p hlast
    obtain ⟨txp, hntxp, htxpid⟩ := findIdx_sound d lh p hfindlh
    have hplt : p < d.nodes.length := nodeAt_lt d p txp hntxp
    have hlen1 : 1 ≤ d.nodes.length := by omega
    have hprevne : tx.prevs ≠ [] := by
      unfold Transaction.is_root at hnr
      intro he
      rw [he] at hnr
      simp at hnr
    subst hd2
    have hnode2 : ∀ i, nodeAt (d.addLeaf tx p) i =
        if i < d.nodes.length then nodeAt d i
        else if i = d.nodes.length then some tx else none := by
      intro i
      unfold nodeAt Dag.addLeaf
      exact get?_append_single d.nodes tx i
    refine ⟨?_, addLeaf_targets d tx p hInv.targets hlen1, addLeaf_bound d tx p hInv.bound hplt,
      ?_, ?_, ?_, ?_⟩
    · intro i txi hni
      rw [hnode2 i] at hni
      split at hni
      · have := hInv.rootAt0 i txi hni
        exact this
      · split at hni
        · rename_i hge hie
          injection hni with hni
          subst hni
          constructor
          · intro he
            exact absurd he hprevne
          · intro he
            omega
        · exact Option.noConfusion hni
    · intro i j txi txj hi hj heq
      rw [hnode2 i] at hi
      rw [hnode2 j] at hj
      split at hi
      · split at hj
        · exact hInv.uniqIds i j txi txj hi hj heq
        · split at hj
          · rename_i hilt hge hje
            injection hj with hj
            subst hj
            exfalso
            have hfi := findIdx_complete d hInv i txi hi
            rw [heq] at hfi
            rw [hfi] at hdup
            simp at hdup
          · exact Option.noConfusion hj
      · split at hi
        · rename_i hge hie
          injection hi with hi
          subst hi
          split at hj
          · exfalso
            have hfj := findIdx_complete d hInv j txj hj
            rw [← heq] at hfj
            rw [hfj] at hdup
            simp at hdup
          · split at hj
            · rename_i hge2 hje
              omega
            · exact Option.noConfusion hj
        · exact Option.noConfusion hi
    · intro pq hpq
      unfold Dag.addLeaf at hpq
      simp only at hpq
      rw [List.mem_append] at hpq
      rcases hpq with hpq | hpq
      · obtain ⟨txc, txp2, hc, hp2, hl⟩ := hInv.parentEdge pq hpq
        refine ⟨txc, txp2, ?_, ?_, hl⟩
        · rw [hnode2, if_pos (nodeAt_lt d pq.2 txc hc)]
          exact hc
        · rw [hnode2, if_pos (nodeAt_lt d pq.1 txp2 hp2)]
          exact hp2
      · simp at hpq
        subst hpq
        refine ⟨tx, txp, ?_, ?_, ?_⟩
        · show nodeAt (d.addLeaf tx p) d.nodes.length = some tx
          rw [hnode2, if_neg (by omega), if_pos rfl]
        · show nodeAt (d.addLeaf tx p) p = some txp
          rw [hnode2, if_pos hplt]
          exact hntxp
        · rw [hlh, htxpid]
    · intro i txi hni hh hmem
      rw [hnode2 i] at hni
      split at hni
      · obtain ⟨j, txj, hj, hjid⟩ := hInv.parentClosed i txi hni hh hmem
        refine ⟨j, txj, ?_, hjid⟩
        rw [hnode2, if_pos (nodeAt_lt d j txj hj)]
        exact hj
      · split at hni
        · injection hni with hni
          subst hni
          obtain ⟨j, hfj⟩ := findPrevIdxs_forall d tx.prevs prevIdxs hfp hh hmem
          obtain ⟨txj, hnj, hjid⟩ := findIdx_sound d hh j hfj
          refine ⟨j, txj, ?_, hjid⟩
          rw [hnode2, if_pos (nodeAt_lt d j txj hnj)]
          exact hnj
        · exact Option.noConfusion hni
    · intro x
      have hfuel : Dag.walk (d.addLeaf tx p) = walkAux (d.addLeaf tx p)
          (d.nodes.length + 2) 0 := by
        unfold Dag.walk
        rw [addLeaf_len]
      have hstable : walkAux d (d.nodes.length + 2) 0 = walkAux d (d.nodes.length + 1) 0 :=
        walkAux_fuel d hInv.targets hInv.bound d.nodes.length 0 (d.nodes.length + 2)
          (d.nodes.length + 1) (by omega) (by omega) (by omega)
      rw [hfuel, addLeaf_len]
      by_cases hx : x = d.nodes.length
      · subst hx
        rw [walkAux_addLeaf_count_new d tx p hInv.targets hInv.bound hplt
          (d.nodes.length + 2) 0 (by omega) (by omega)]
        rw [hstable]
        have := hInv.walkCount p
        unfold Dag.walk at this
        rw [this, if_pos hplt, if_pos (by omega)]
      · rw [walkAux_addLeaf_count_old d tx p hInv.targets hInv.bound hplt x hx
          (d.nodes.length + 2) 0 (by omega) (by omega)]
        rw [hstable]
        have := hInv.walkCount x
        unfold Dag.walk at this
        rw [this]
        split_ifs <;> omega

/-- The empty DAG satisfies the invariant. -/
theorem dagInv_empty : DagInv ⟨[], []⟩ := by
  refine ⟨?_, ?_, ?_, ?_, ?_, ?_, ?_⟩
  · intro i tx hni
    unfold nodeAt at hni
    simp at hni
  · show List.map _ [] = List.range' 1 (0 - 1)
    rfl
  · intro e he
    exact absurd he (List.not_mem_nil e)
  · intro i j txi txj hi _ _
    unfold nodeAt at hi
    simp at hi
  · intro pq hpq
    exact absurd hpq (List.not_mem_nil pq)
  · intro i txi hni
    unfold nodeAt at hni
    simp at hni
  · intro x
    show List.count x (walkAux _ 1 0) = _
    unfold walkAux childrenOf
    simp

/-- Every reachable graph satisfies the DAG invariant. -/
theorem reachable_dagInv (g : Graph) (hg : Reachable g) : DagInv g.dag := by
  induction hg with
  | empty => exact dagInv_empty
  | step hgr hadd ih =>
    rename_i g0 g2 tx idx
    unfold Graph.add at hadd
    split at hadd
    · exact Except.noConfusion hadd
    · split at hadd
      · rename_i di hloc
        injection hadd with hadd
        injection hadd with hg2 hidx
        subst hg2
        exact add_local_inv g0.dag tx di.1 di.2 ih (by rw [← hloc])
      · exact Except.noConfusion hadd

/-- An in-memory failure propagates through `Graph::add` unchanged
(once the data is valid UTF-8). -/
theorem graph_add_err (g : Graph) (tx : Transaction) (e : GraphErr)
    (hdata : (utf8Decode tx.data).isSome = true) (herr : g.dag.add_local tx = .error e) :
    g.add tx = .error e := by
  unfold Graph.add
  match hu : utf8Decode tx.data with
  | none =>
    rw [hu] at hdata
    simp at hdata
  | some s =>
    match hl : g.dag.add_local tx with
    | .ok di =>
      rw [herr] at hl
      exact Except.noConfusion hl
    | .error e2 =>
      rw [hl] at herr
      injection herr with he
      subst he
      rfl

/-- Claim C2: the three failure modes of `Graph::add` and the
structural invariants of every reachable graph. The embedding is
state-passing, so a failing `add` returns only the error: the graph
value is unchanged. -/
theorem claimC2 (g : Graph) (hg : Reachable g) (tx : Transaction) :
    ((utf8Decode tx.data).isSome = true →
      (∃ i txi, nodeAt g.dag i = some txi ∧ txi.id = tx.id) →
      g.add tx = .error .duplicateTransaction) ∧
    ((utf8Decode tx.data).isSome = true → (g.dag.findIdx tx.id).isSome = false →
      tx.is_root = true → g.root.isSome = true →
      g.add tx = .error .rootAlreadyPresent) ∧
    ((utf8Decode tx.data).isSome = true → (g.dag.findIdx tx.id).isSome = false →
      tx.is_root = false → (∃ h ∈ tx.prevs, g.dag.findIdx h = none) →
      ∃ h2 ∈ tx.prevs, g.add tx = .error (.missingParent h2)) ∧
    (∀ i j txi txj, nodeAt g.dag i = some txi → nodeAt g.dag j = some txj →
      txi.id = txj.id → i = j) ∧
    (∀ i j txi txj, nodeAt g.dag i = some txi → nodeAt g.dag j = some txj →
      txi.prevs = [] → txj.prevs = [] → i = j) ∧
    (∀ i txi, nodeAt g.dag i = some txi → ∀ h ∈ txi.prevs,
      ∃ j txj, nodeAt g.dag j = some txj ∧ txj.id = h) := by
  have hInv := reachable_dagInv g hg
  refine ⟨?_, ?_, ?_, hInv.uniqIds, ?_, hInv.parentClosed⟩
  · intro hdata hid
    exact graph_add_err g tx _ hdata (add_local_dup g.dag tx hInv hid)
  · intro hdata hID hr hroot
    exact graph_add_err g tx _ hdata (add_local_root_dup g.dag tx hID hr hroot)
  · intro hdata hID hnr hmiss
    obtain ⟨h2, hmem, herr⟩ := add_local_missing g.dag tx hID hnr hmiss
    exact ⟨h2, hmem, graph_add_err g tx _ hdata herr⟩
  · intro i j txi txj hi hj hri hrj
    have h1 := (hInv.rootAt0 i txi hi).mp hri
    have h2 := (hInv.rootAt0 j txj hj).mp hrj
    omega

/-- The graph holding exactly the parsed transaction `txT1`. -/
def gW2 : Graph :=
  match Graph.emptyGraph.add txT1 with
  | .ok gi => gi.1
  | .error _ => Graph.emptyGraph

/-- A second root transaction, with a different id. -/
def txB : Transaction :=
  { id := ⟨List.replicate 32 1⟩, data := [97], prevs := [],
    payload := ⟨List.replicate 32 0⟩, payload_type := [Char.ofNat 97], version := 0,
    key := none, key_id := [Char.ofNat 107], sign_at := 0, sign_algo := SigAlg.ES256 }

/-- A transaction whose listed parent is absent. -/
def txC : Transaction :=
  { txB with id := ⟨List.replicate 32 2⟩, prevs := [⟨List.replicate 32 3⟩] }

set_option maxRecDepth 1000000 in
/-- Witness for C2 on the one-node graph: re-adding the root is a
duplicate, a second root is refused, and an unknown parent is
reported. -/
theorem claimC2_witness :
    Graph.emptyGraph.add txT1 = .ok (gW2, 0) ∧
    gW2.add txT1 = .error .duplicateTransaction ∧
    gW2.add txB = .error .rootAlreadyPresent ∧
    (∃ h2 ∈ txC.prevs, gW2.add txC = .error (.missingParent h2)) := by
  have hadd : Graph.emptyGraph.add txT1 = .ok (gW2, 0) := by decide
  have hg : Reachable gW2 := Reachable.step Reachable.empty hadd
  refine ⟨hadd, ?_, ?_, ?_⟩
  · exact (claimC2 gW2 hg txT1).1 (by decide) ⟨0, txT1, by decide, rfl⟩
  · exact (claimC2 gW2 hg txB).2.1 (by decide) (by decide) (by decide) (by decide)
  · exact (claimC2 gW2 hg txC).2.2.1 (by decide) (by decide) (by decide)
      ⟨⟨List.replicate 32 3⟩, by decide, by decide⟩

/-- Counting through `filterMap`. -/
theorem count_filterMap {α β : Type} [DecidableEq β] (f : α → Option β) (x : β) :
    ∀ l : List α, (l.filterMap f).count x = l.countP (fun a => f a == some x)
  | [] => rfl
  | a :: l => by
    rw [List.filterMap_cons, List.countP_cons]
    match hf : f a with
    | none =>
      simp only [hf]
      rw [count_filterMap f x l]
      simp
    | some b =>
      simp only [hf]
      rw [List.count_cons, count_filterMap f x l]
      simp only [beq_iff_eq, Option.some.injEq]

/-- Claim C10: every reachable graph is a tree rooted at index 0 — the
root has no incoming edge and every later node exactly one, coming
from its last-listed parent; `find` locates every stored transaction
and `to_vec` lists each stored transaction exactly once. -/
theorem claimC10 (g : Graph) (hg : Reachable g) :
    ((g.dag.edges.map (fun e => e.2)).count 0 = 0) ∧
    (∀ j, 1 ≤ j → j < g.dag.nodes.length →
      (g.dag.edges.map (fun e => e.2)).count j = 1) ∧
    (∀ e ∈ g.dag.edges, e.1 < e.2) ∧
    (∀ pq ∈ g.dag.edges, ∃ txc txp, nodeAt g.dag pq.2 = some txc ∧
      nodeAt g.dag pq.1 = some txp ∧ txc.prevs.getLast? = some txp.id) ∧
    (∀ i tx, nodeAt g.dag i = some tx → g.find tx.id = some i) ∧
    (∀ i tx, nodeAt g.dag i = some tx → g.to_vec.count tx = 1) ∧
    (∀ tx ∈ g.to_vec, ∃ i, nodeAt g.dag i = some tx) := by
  have hInv := reachable_dagInv g hg
  refine ⟨?_, ?_, hInv.bound, hInv.parentEdge, ?_, ?_, ?_⟩
  · rw [hInv.targets]
    refine List.count_eq_zero_of_not_mem ?_
    intro hmem
    rw [List.mem_range'_1] at hmem
    omega
  · intro j h1 hlen
    rw [hInv.targets]
    refine List.count_eq_one_of_mem ?_ ?_
    · exact List.nodup_range' 1 (g.dag.nodes.length - 1)
    · rw [List.mem_range'_1]
      omega
  · intro i tx hni
    exact findIdx_complete g.dag hInv i tx hni
  · intro i tx hni
    have h1 : g.to_vec.count tx = (g.dag.walk.filterMap (nodeAt g.dag)).count tx := rfl
    rw [h1, count_filterMap]
    have hcongr : g.dag.walk.countP (fun j => nodeAt g.dag j == some tx) =
        g.dag.walk.countP (fun j => j == i) := by
      refine List.countP_congr ?_
      intro j hj
      by_cases hji : j = i
      · subst hji
        simp [hni]
      · have hne : nodeAt g.dag j ≠ some tx :=
          fun he => hji (hInv.uniqIds j i tx tx he hni rfl)
        simp [hne, hji]
    rw [hcongr]
    have h2 : g.dag.walk.countP (fun j => j == i) = g.dag.walk.count i := rfl
    rw [h2, hInv.walkCount i, if_pos (nodeAt_lt g.dag i tx hni)]
  · intro tx htx
    have htx2 : tx ∈ g.dag.walk.filterMap (nodeAt g.dag) := htx
    rw [List.mem_filterMap] at htx2
    obtain ⟨a, _, ha⟩ := htx2
    exact ⟨a, ha⟩

set_option maxRecDepth 1000000 in
/-- Witness for C10 on the one-node graph: no edge enters the root,
`find` returns index 0 for the stored transaction and `to_vec` lists
it exactly once. -/
theorem claimC10_witness :
    (gW2.dag.edges.map (fun e => e.2)).count 0 = 0 ∧
    gW2.find txT1.id = some 0 ∧ gW2.to_vec.count txT1 = 1 := by
  have hadd : Graph.emptyGraph.add txT1 = .ok (gW2, 0) := by decide
  have hg : Reachable gW2 := Reachable.step Reachable.empty hadd
  have h0 : nodeAt gW2.dag 0 = some txT1 := by decide
  have hc := claimC10 gW2 hg
  exact ⟨hc.1, hc.2.2.2.2.1 0 txT1 h0, hc.2.2.2.2.2.1 0 txT1 h0⟩

/-! ## Persistence round trip (claims C4 and C8) -/

/-- One round of the compression function keeps eight words. -/
theorem compressStep_length (st : List Nat) (kw : Nat × Nat) (h : st.length = 8) :
    (compressStep st kw).length = 8 := by
  rcases st with _ | ⟨a, st⟩
  · simp at h
  rcases st with _ | ⟨b, st⟩
  · simp at h
  rcases st with _ | ⟨c, st⟩
  · simp at h
  rcases st with _ | ⟨d, st⟩
  · simp at h
  rcases st with _ | ⟨e, st⟩
  · simp at h
  rcases st with _ | ⟨f, st⟩
  · simp at h
  rcases st with _ | ⟨g, st⟩
  · simp at h
  rcases st with _ | ⟨hh, st⟩
  · simp at h
  rcases st with _ | ⟨i, st⟩
  · rfl
  · simp only [List.length_cons] at h
    omega

/-- The 64 compression rounds keep eight words. -/
theorem foldlCompressStep_length (l : List (Nat × Nat)) : ∀ (st : List Nat), st.length = 8 →
    (l.foldl compressStep st).length = 8 := by
  induction l with
  | nil => intro st h; exact h
  | cons kw l ih =>
    intro st h
    exact ih _ (compressStep_length st kw h)

/-- Compressing one block keeps eight words. -/
theorem compressBlock_length (st : List Nat) (b : Bytes) (h : st.length = 8) :
    (compressBlock st b).length = 8 := by
  unfold compressBlock
  rw [List.length_map, List.length_zip, foldlCompressStep_length _ st h, h]
  rfl

/-- Hashing any number of blocks keeps eight words. -/
theorem foldlCompressBlock_length (bs : List Bytes) : ∀ (st : List Nat), st.length = 8 →
    (bs.foldl compressBlock st).length = 8 := by
  induction bs with
  | nil => intro st h; exact h
  | cons b bs ih =>
    intro st h
    exact ih _ (compressBlock_length st b h)

/-- Serialising the words gives four bytes each. -/
theorem flatMap4_length (l : List Nat) :
    (l.flatMap (fun h => [h >>> 24 % 256, h >>> 16 % 256, h >>> 8 % 256, h % 256])).length =
      4 * l.length := by
  induction l with
  | nil => rfl
  | cons a l ih =>
    simp only [List.flatMap_cons, List.length_append, ih, List.length_cons]
    simp
    omega

/-- A SHA-256 digest has 32 bytes. -/
theorem sha256_length (msg : Bytes) : (sha256 msg).length = 32 := by
  simp only [sha256]
  rw [flatMap4_length, foldlCompressBlock_length _ shaH0 rfl]

/-- Fields of a transaction produced by `parse_unsafe`: the data is
the raw string's bytes and the id a 32-byte digest. -/
theorem parse_unsafe_fields (raw : List Char) (t : Transaction)
    (h : Transaction.parse_unsafe raw = .ok t) :
    t.data = utf8Encode raw ∧ t.id.bytes.length = 32 ∧ utf8Decode t.data = some raw := by
  unfold Transaction.parse_unsafe at h
  split at h
  · rename_i hp heq
    obtain ⟨hdata, hid, _, _⟩ := parse_transaction_fields raw hp.1 hp.2 t h
    refine ⟨hdata, ?_, by rw [hdata]; exact utf8Decode_encode raw⟩
    rw [hid]
    exact sha256_length _
  · simp at h

/-- `bincode::deserialize` inverts `bincode::serialize` on a `Node`
whose hash has 32 bytes, whose index fits in a u32 and whose string
encodes to fewer than 2^64 bytes. -/
theorem bincodeDecodeNode_encode : ∀ (nd : Node), nd.tx_id.bytes.length = 32 →
    nd.idx < 2 ^ 32 → (utf8Encode nd.tx_data).length < 2 ^ 64 →
    bincodeDecodeNode (bincodeEncodeNode nd) = some nd
  | ⟨idx, ⟨idb⟩, s⟩, h32, hidx, hlen => by
    simp only at h32 hidx hlen
    have hb : bincodeEncodeNode ⟨idx, ⟨idb⟩, s⟩ =
        idx % 256 :: idx / 256 % 256 :: idx / 65536 % 256 :: idx / 16777216 % 256 ::
        (idb ++ ((utf8Encode s).length % 256 :: (utf8Encode s).length / 256 % 256 ::
          (utf8Encode s).length / 65536 % 256 :: (utf8Encode s).length / 16777216 % 256 ::
          (utf8Encode s).length / 4294967296 % 256 ::
          (utf8Encode s).length / 1099511627776 % 256 ::
          (utf8Encode s).length / 281474976710656 % 256 ::
          (utf8Encode s).length / 72057594037927936 % 256 :: utf8Encode s)) := by
      simp [bincodeEncodeNode, u32LE, u64LE, List.append_assoc]
    rw [hb]
    simp only [bincodeDecodeNode]
    rw [if_neg (by simp [h32])]
    simp only [List.take_left' h32, List.drop_left' h32]
    have hL : (utf8Encode s).length % 256 + (utf8Encode s).length / 256 % 256 * 256 +
        (utf8Encode s).length / 65536 % 256 * 65536 +
        (utf8Encode s).length / 16777216 % 256 * 16777216 +
        (utf8Encode s).length / 4294967296 % 256 * 4294967296 +
        (utf8Encode s).length / 1099511627776 % 256 * 1099511627776 +
        (utf8Encode s).length / 281474976710656 % 256 * 281474976710656 +
        (utf8Encode s).length / 72057594037927936 % 256 * 72057594037927936 =
        (utf8Encode s).length := by
      omega
    rw [hL, if_neg (Nat.lt_irrefl _), List.take_length, utf8Decode_encode]
    have hidx2 : idx % 256 + idx / 256 % 256 * 256 + idx / 65536 % 256 * 65536 +
        idx / 16777216 % 256 * 16777216 = idx := by
      omega
    rw [hidx2]

/-- One record of the `Graph::open` decoding pass. -/
def decRec (kv : Bytes × Bytes) : Option (Nat × Transaction) :=
  match bincodeDecodeNode kv.2 with
  | some nd =>
    match Transaction.parse_unsafe nd.tx_data with
    | .ok tx => some (nd.idx, tx)
    | .error _ => none
  | none => none

/-- When every record decodes, the decoding pass is a map. -/
theorem decodeRecords_all_some : ∀ (l : List (Bytes × Bytes)),
    (∀ kv ∈ l, (decRec kv).isSome = true) →
    decodeRecords l = .ok (l.filterMap decRec)
  | [], _ => rfl
  | kv :: rest, h => by
    have hkv := h kv (by simp)
    unfold decodeRecords
    match hd : bincodeDecodeNode kv.2 with
    | some nd =>
      show (match Transaction.parse_unsafe nd.tx_data with
        | .ok tx => (decodeRecords rest).map (fun r => (nd.idx, tx) :: r)
        | .error e => .error (.badTx e)) = _
      match hp : Transaction.parse_unsafe nd.tx_data with
      | .ok tx =>
        have hdec : decRec kv = some (nd.idx, tx) := by
          simp only [decRec, hd, hp]
        rw [List.filterMap_cons, hdec]
        show (decodeRecords rest).map (fun r => (nd.idx, tx) :: r) =
          Except.ok ((nd.idx, tx) :: List.filterMap decRec rest)
        rw [decodeRecords_all_some rest (fun kv2 hm => h kv2 (List.mem_cons_of_mem _ hm))]
        rfl
      | .error e =>
        exfalso
        have hnone : decRec kv = none := by simp only [decRec, hd, hp]
        rw [hnone] at hkv
        simp at hkv
    | none =>
      exfalso
      have hnone : decRec kv = none := by simp only [decRec, hd]
      rw [hnone] at hkv
      simp at hkv

/-- A filterMap that succeeds pointwise with the element itself is the
identity. -/
theorem filterMap_some_id {α : Type} (f : α → Option α) : ∀ (l : List α),
    (∀ a ∈ l, f a = some a) → l.filterMap f = l
  | [], _ => rfl
  | a :: l, h => by
    rw [List.filterMap_cons, h a (by simp),
      filterMap_some_id f l (fun b hb => h b (by simp [hb]))]

/-- `enumFrom` over a one-element extension. -/
theorem enumFrom_append_single {α : Type} (n : Nat) (l : List α) (a : α) :
    List.enumFrom n (l ++ [a]) = List.enumFrom n l ++ [(n + l.length, a)] := by
  induction l generalizing n with
  | nil => simp [List.enumFrom]
  | cons b l ih => simp [List.enumFrom, ih, Nat.add_assoc, Nat.add_comm 1 l.length]

/-- `enum` over a one-element extension. -/
theorem enum_append_single {α : Type} (l : List α) (a : α) :
    (l ++ [a]).enum = l.enum ++ [(l.length, a)] := by
  have h := enumFrom_append_single 0 l a
  simpa [List.enum] using h

/-- Replaying a successful prefix then the rest. -/
theorem addAllLocal_append : ∀ (l1 : List Transaction) (d d1 : Dag) (l2 : List Transaction),
    addAllLocal d l1 = .ok d1 → addAllLocal d (l1 ++ l2) = addAllLocal d1 l2
  | [], d, d1, l2, h => by
    injection h with h
    rw [← h]
    rfl
  | tx :: l1, d, d1, l2, h => by
    revert h
    show (match d.add_local tx with
        | .ok di => addAllLocal di.1 l1
        | .error e => .error e) = .ok d1 →
      (match d.add_local tx with
        | .ok di => addAllLocal di.1 (l1 ++ l2)
        | .error e => .error e) = addAllLocal d1 l2
    match hl : d.add_local tx with
    | .ok di =>
      intro h2
      exact addAllLocal_append l1 di.1 d1 l2 h2
    | .error e =>
      intro h2
      exact Except.noConfusion h2

/-- Two permuted lists sorted on distinct first components are equal. -/
theorem sorted_perm_eq_of_strict {α : Type} (l1 l2 : List (Nat × α)) (hp : l1.Perm l2)
    (h1 : l1.Pairwise (fun a b => a.1 ≤ b.1)) (h2 : l2.Pairwise (fun a b => a.1 < b.1)) :
    l1 = l2 := by
  have hnodup : (l2.map Prod.fst).Pairwise (fun a b => a < b) := (List.pairwise_map).mpr h2
  have hmapperm : (l1.map Prod.fst).Perm (l2.map Prod.fst) := hp.map _
  have hnd2 : (l2.map Prod.fst).Nodup := hnodup.imp (fun h => Nat.ne_of_lt h)
  have hnd1 : (l1.map Prod.fst).Nodup := (hmapperm.nodup_iff).mpr hnd2
  have hne1 : l1.Pairwise (fun a b => a.1 ≠ b.1) := (List.pairwise_map).mp hnd1
  have hlt1 : l1.Pairwise (fun a b => a.1 < b.1) :=
    (h1.and hne1).imp (fun h => Nat.lt_of_le_of_ne h.1 h.2)
  exact @List.eq_of_perm_of_sorted _ _
    ⟨fun a b ha hb => absurd (Nat.lt_trans ha hb) (Nat.lt_irrefl _)⟩ _ _ hp hlt1 h2

/-- A sequence of `Graph::add` calls, stopping at the first failure. -/
def addChainG (g : Graph) : List Transaction → Option Graph
  | [] => some g
  | tx :: rest =>
    match g.add tx with
    | .ok gi => addChainG gi.1 rest
    | .error _ => none

/-- Inversion of a successful `Graph::add`: the in-memory insert
succeeded and the tree gained exactly the bincode record of the new
node, keyed by the raw id bytes. -/
theorem graph_add_ok (g : Graph) (tx : Transaction) (g2 : Graph) (i : Nat)
    (h : g.add tx = .ok (g2, i)) :
    ∃ s, utf8Decode tx.data = some s ∧ g.dag.add_local tx = .ok (g2.dag, i) ∧
      g2.tree = g.tree.insert tx.id.bytes (bincodeEncodeNode ⟨w32 i, tx.id, s⟩) := by
  revert h
  unfold Graph.add
  match hu : utf8Decode tx.data with
  | none =>
    intro h
    exact Except.noConfusion h
  | some s =>
    match hl : g.dag.add_local tx with
    | .ok di =>
      intro h
      injection h with h
      injection h with h1 h2
      subst h2
      refine ⟨s, rfl, ?_, ?_⟩
      · rw [← h1]
      · rw [← h1]
    | .error e =>
      intro h
      exact Except.noConfusion h

/-- A transaction value as produced by the parser (re-parses to
itself), with data short enough for the u64 length prefix. -/
def GoodTx (tx : Transaction) : Prop :=
  ∃ s, Transaction.parse_unsafe s = .ok tx ∧ (utf8Encode s).length < 2 ^ 64

/-- The canonical on-disk record of node `i` holding `tx`. -/
def nodeRecord (i : Nat) (tx : Transaction) : Bytes × Bytes :=
  (tx.id.bytes, bincodeEncodeNode ⟨i, tx.id, (utf8Decode tx.data).getD []⟩)

/-- The canonical record of a parser-produced transaction decodes back
to its index and transaction. -/
theorem nodeRecord_dec (i : Nat) (tx : Transaction) (hg : GoodTx tx) (hi : i < 2 ^ 32) :
    decRec (nodeRecord i tx) = some (i, tx) := by
  obtain ⟨s, hp, hlen⟩ := hg
  obtain ⟨hdata, h32, hdec⟩ := parse_unsafe_fields s tx hp
  have hgetD : (utf8Decode tx.data).getD [] = s := by rw [hdec]; rfl
  have hround : bincodeDecodeNode (bincodeEncodeNode ⟨i, tx.id, s⟩) = some ⟨i, tx.id, s⟩ :=
    bincodeDecodeNode_encode ⟨i, tx.id, s⟩ h32 hi hlen
  simp only [decRec, nodeRecord, hgetD, hround, hp]

/-- The persistence invariant of graphs built by `Graph::add`: every
node is parser-produced, the tree holds exactly the canonical records,
and replaying the node list rebuilds the DAG. -/
structure ChainInv (g : Graph) : Prop where
  reach : Reachable g
  sizeOk : g.dag.nodes.length ≤ 2 ^ 32
  good : ∀ tx ∈ g.dag.nodes, GoodTx tx
  entriesPerm : g.tree.entries.Perm
    (g.dag.nodes.enum.map (fun itx => nodeRecord itx.1 itx.2))
  replay : addAllLocal ⟨[], []⟩ g.dag.nodes = .ok g.dag

/-- The empty store satisfies the persistence invariant. -/
theorem chainInv_empty : ChainInv Graph.emptyGraph := by
  refine ⟨.empty, Nat.zero_le _, ?_, List.Perm.refl _, rfl⟩
  intro tx htx
  exact absurd htx (List.not_mem_nil tx)

/-- One successful `Graph::add` preserves the persistence invariant. -/
theorem chainInv_step (g : Graph) (tx : Transaction) (g2 : Graph) (i : Nat)
    (inv : ChainInv g) (hadd : g.add tx = .ok (g2, i)) (hg : GoodTx tx)
    (hsize : g.dag.nodes.length + 1 ≤ 2 ^ 32) :
    ChainInv g2 := by
  obtain ⟨s, hu, hlocal, htree⟩ := graph_add_ok g tx g2 i hadd
  obtain ⟨hidx, hnof, hnodes, _⟩ := add_local_ok g.dag tx g2.dag i hlocal
  subst hidx
  have hw : w32 g.dag.nodes.length = g.dag.nodes.length := by
    unfold w32
    omega
  refine ⟨.step inv.reach hadd, ?_, ?_, ?_, ?_⟩
  · rw [hnodes]
    simp only [List.length_append, List.length_cons, List.length_nil]
    omega
  · intro t ht
    rw [hnodes] at ht
    rcases List.mem_append.mp ht with h1 | h2
    · exact inv.good t h1
    · rw [List.mem_singleton] at h2
      subst h2
      exact hg
  · have hfresh : ∀ e ∈ g.tree.entries, e.1 ≠ tx.id.bytes := by
      intro e he hek
      have he3 : e ∈ g.dag.nodes.enum.map (fun itx => nodeRecord itx.1 itx.2) :=
        (inv.entriesPerm.mem_iff).mp he
      rw [List.mem_map] at he3
      obtain ⟨itx, hin, heq⟩ := he3
      obtain ⟨i0, t0⟩ := itx
      have hnode : nodeAt g.dag i0 = some t0 := List.mk_mem_enum_iff_get?.mp hin
      have hb : t0.id.bytes = tx.id.bytes := by
        rw [← heq] at hek
        exact hek
      have hids : t0.id = tx.id := by
        have h1 : (⟨t0.id.bytes⟩ : Hash) = ⟨tx.id.bytes⟩ := congrArg Hash.mk hb
        exact h1
      have hInvD : DagInv g.dag := reachable_dagInv g inv.reach
      have hf := findIdx_complete g.dag hInvD i0 t0 hnode
      rw [hids] at hf
      rw [hf] at hnof
      simp at hnof
    have hrec : (tx.id.bytes, bincodeEncodeNode ⟨w32 g.dag.nodes.length, tx.id, s⟩) =
        nodeRecord g.dag.nodes.length tx := by
      simp only [nodeRecord, hw, hu]
      rfl
    have hcanon : g2.dag.nodes.enum.map (fun itx => nodeRecord itx.1 itx.2) =
        g.dag.nodes.enum.map (fun itx => nodeRecord itx.1 itx.2) ++
          [nodeRecord g.dag.nodes.length tx] := by
      rw [hnodes, enum_append_single, List.map_append]
      rfl
    have hperm1 : g2.tree.entries.Perm ((tx.id.bytes,
        bincodeEncodeNode ⟨w32 g.dag.nodes.length, tx.id, s⟩) :: g.tree.entries) := by
      rw [htree]
      exact insertSorted_perm_fresh _ _ _ hfresh
    rw [hcanon]
    refine hperm1.trans ?_
    rw [hrec]
    exact (inv.entriesPerm.cons _).trans (List.perm_append_singleton _ _).symm
  · rw [hnodes, addAllLocal_append g.dag.nodes ⟨[], []⟩ g.dag [tx] inv.replay]
    show (match g.dag.add_local tx with
      | .ok di => addAllLocal di.1 []
      | .error e => .error e) = .ok g2.dag
    rw [hlocal]
    rfl

/-- The persistence invariant holds after any successful chain of
`Graph::add` calls that fits the u32 index space. -/
theorem addChain_inv : ∀ (txs : List Transaction) (g g2 : Graph),
    addChainG g txs = some g2 → ChainInv g → (∀ tx ∈ txs, GoodTx tx) →
    g.dag.nodes.length + txs.length ≤ 2 ^ 32 → ChainInv g2
  | [], g, g2, hchain, inv, _, _ => by
    injection hchain with hchain
    rw [← hchain]
    exact inv
  | tx :: rest, g, g2, hchain, inv, hgood, hsize => by
    revert hchain
    show (match g.add tx with
      | .ok gi => addChainG gi.1 rest
      | .error _ => none) = some g2 → ChainInv g2
    match ha : g.add tx with
    | .ok gi =>
      intro hchain
      have hsz : g.dag.nodes.length + 1 ≤ 2 ^ 32 := by
        simp only [List.length_cons] at hsize
        omega
      have inv2 : ChainInv gi.1 := chainInv_step g tx gi.1 gi.2 inv
        (by rw [ha]) (hgood tx (by simp)) hsz
      refine addChain_inv rest gi.1 g2 hchain inv2
        (fun t ht => hgood t (List.mem_cons_of_mem _ ht)) ?_
      obtain ⟨s, _, hlocal, _⟩ := graph_add_ok g tx gi.1 gi.2 (by rw [ha])
      obtain ⟨_, _, hnodes, _⟩ := add_local_ok g.dag tx gi.1.dag gi.2 hlocal
      rw [hnodes]
      simp only [List.length_append, List.length_cons, List.length_nil] at *
      omega
    | .error e =>
      intro hchain
      exact Option.noConfusion hchain

/-- Claim C4: after any successful chain of `Graph::add` calls from an
empty store whose transactions are parser-produced, re-opening the
backing tree with `Graph::open` rebuilds the identical DAG, so the
enumeration (`to_vec`) and every node ordinal (`find`) match the
pre-close state. The chain-length bound reflects the `u32` node index
space of the in-memory graph. -/
theorem claimC4 (txs : List Transaction) (g : Graph)
    (hchain : addChainG Graph.emptyGraph txs = some g)
    (hgood : ∀ tx ∈ txs, GoodTx tx)
    (hcount : txs.length ≤ 2 ^ 32) :
    ∃ g2, Graph.openGraph g.tree = .ok g2 ∧ g2.dag = g.dag ∧
      g2.to_vec = g.to_vec ∧ (∀ id, g2.find id = g.find id) := by
  have inv : ChainInv g := addChain_inv txs Graph.emptyGraph g hchain chainInv_empty hgood
    (by show 0 + txs.length ≤ 2 ^ 32; omega)
  have hsz : g.dag.nodes.length ≤ 2 ^ 32 := inv.sizeOk
  have hdecAll : ∀ kv ∈ g.tree.entries, (decRec kv).isSome = true := by
    intro kv hkv
    have hkv2 : kv ∈ g.dag.nodes.enum.map (fun itx => nodeRecord itx.1 itx.2) :=
      (inv.entriesPerm.mem_iff).mp hkv
    rw [List.mem_map] at hkv2
    obtain ⟨itx, hin, heq⟩ := hkv2
    obtain ⟨i0, t0⟩ := itx
    have hnode : nodeAt g.dag i0 = some t0 := List.mk_mem_enum_iff_get?.mp hin
    have hlt : i0 < g.dag.nodes.length := nodeAt_lt g.dag i0 t0 hnode
    have hd : decRec kv = some (i0, t0) := by
      rw [← heq]
      exact nodeRecord_dec i0 t0 (inv.good t0 (List.get?_mem hnode)) (by omega)
    rw [hd]
    rfl
  have hdec : decodeRecords g.tree.entries = .ok (g.tree.entries.filterMap decRec) :=
    decodeRecords_all_some _ hdecAll
  have hfm : (g.dag.nodes.enum.map (fun itx => nodeRecord itx.1 itx.2)).filterMap decRec =
      g.dag.nodes.enum := by
    rw [List.filterMap_map]
    refine filterMap_some_id _ _ ?_
    intro itx hin
    obtain ⟨i0, t0⟩ := itx
    have hnode : nodeAt g.dag i0 = some t0 := List.mk_mem_enum_iff_get?.mp hin
    have hlt : i0 < g.dag.nodes.length := nodeAt_lt g.dag i0 t0 hnode
    show decRec (nodeRecord i0 t0) = some (i0, t0)
    exact nodeRecord_dec i0 t0 (inv.good t0 (List.get?_mem hnode)) (by omega)
  have hperm : (g.tree.entries.filterMap decRec).Perm g.dag.nodes.enum := by
    have h1 := inv.entriesPerm.filterMap decRec
    rw [hfm] at h1
    exact h1
  have hsorted : ((g.tree.entries.filterMap decRec).mergeSort
      (fun a b => a.1 ≤ b.1)) = g.dag.nodes.enum := by
    refine sorted_perm_eq_of_strict _ _ ((List.mergeSort_perm _ _).trans hperm) ?_ ?_
    · have hs := @List.sorted_mergeSort (Nat × Transaction)
        (fun a b => decide (a.1 ≤ b.1))
        (by intro a b c h1 h2; simp only [decide_eq_true_eq] at *; omega)
        (by intro a b; simp only [Bool.or_eq_true, decide_eq_true_eq]; omega)
        (g.tree.entries.filterMap decRec)
      exact hs.imp (fun h => by simpa using h)
    · have hr : (List.range g.dag.nodes.length).Pairwise (fun a b => a < b) :=
        List.pairwise_lt_range _
      rw [← List.enum_map_fst] at hr
      exact (List.pairwise_map).mp hr
  have hsnd : g.dag.nodes.enum.map (fun r => r.2) = g.dag.nodes := by
    have h1 : (fun r : Nat × Transaction => r.2) = Prod.snd := rfl
    rw [h1, List.enum_map_snd]
  refine ⟨⟨g.tree, g.dag⟩, ?_, rfl, rfl, fun id => rfl⟩
  have hgoal : (match addAllLocal ⟨[], []⟩
      (((g.tree.entries.filterMap decRec).mergeSort
        (fun a b => a.1 ≤ b.1)).map (fun r => r.2)) with
    | .ok d => Except.ok (⟨g.tree, d⟩ : Graph)
    | .error e => Except.error (OpenErr.addFailed e)) = Except.ok (⟨g.tree, g.dag⟩ : Graph) := by
    rw [hsorted, hsnd, inv.replay]
  show Graph.openGraph g.tree = Except.ok ⟨g.tree, g.dag⟩
  unfold Graph.openGraph
  rw [hdec]
  exact hgoal

set_option maxRecDepth 1000000 in
/-- Witness for C4: the one-transaction store reloads to the identical
graph. -/
theorem claimC4_witness :
    ∃ g2, Graph.openGraph gW2.tree = .ok g2 ∧ g2.dag = gW2.dag ∧
      g2.to_vec = gW2.to_vec ∧ (∀ id, g2.find id = gW2.find id) := by
  refine claimC4 [txT1] gW2 (by decide) ?_ (by decide)
  intro tx htx
  rw [List.mem_singleton] at htx
  subst htx
  exact ⟨rawT1, by decide, by decide⟩

/-- Claim C8 (corrected): a successful `Graph::add` writes into the
`nuts/dag` tree, keyed by the raw 32-byte id, the **bincode** encoding
of `{ idx: u32, tx_id, tx_data }` — little-endian fixed-width integers
with a u64 length prefix, not MessagePack — and `Graph::open` decodes
exactly this bincode format, inverting the write. -/
theorem claimC8 (g : Graph) (tx : Transaction) (g2 : Graph) (i : Nat)
    (hadd : g.add tx = .ok (g2, i)) :
    ∃ s, utf8Decode tx.data = some s ∧
      g2.tree = g.tree.insert tx.id.bytes (bincodeEncodeNode ⟨w32 i, tx.id, s⟩) ∧
      g2.tree.get tx.id.bytes = some (bincodeEncodeNode ⟨w32 i, tx.id, s⟩) ∧
      (tx.id.bytes.length = 32 → i < 2 ^ 32 → (utf8Encode s).length < 2 ^ 64 →
        bincodeDecodeNode (bincodeEncodeNode ⟨w32 i, tx.id, s⟩) = some ⟨i, tx.id, s⟩) := by
  obtain ⟨s, hu, _, htree⟩ := graph_add_ok g tx g2 i hadd
  refine ⟨s, hu, htree, ?_, ?_⟩
  · rw [htree]
    exact lookupKey_insertSorted_self _ _ _
  · intro h32 hi hlen
    have hw : w32 i = i := by
      unfold w32
      omega
    rw [hw]
    exact bincodeDecodeNode_encode ⟨i, tx.id, s⟩ h32 hi hlen

/-- Modelled from the spec: the MessagePack encoding of the record
`{ ordinal: u32, tx_id: Hash, tx_data: string }` that the spec claims
is stored — a 3-element array (0x93) of a minimally-encoded unsigned
ordinal, the hash as an array of its 32 bytes, and a UTF-8 string with
a MessagePack string header. -/
def msgpackU32Spec (n : Nat) : Bytes :=
  if n < 128 then [n]
  else if n < 256 then [0xcc, n]
  else if n < 65536 then [0xcd, n / 256, n % 256]
  else [0xce, n / 16777216, n / 65536 % 256, n / 256 % 256, n % 256]

/-- Modelled from the spec: one hash byte as a MessagePack unsigned
integer. -/
def msgpackByteSpec (n : Nat) : Bytes := if n < 128 then [n] else [0xcc, n]

/-- Modelled from the spec: a 32-byte hash as a MessagePack array of
its bytes. -/
def msgpackHashSpec (h : Hash) : Bytes :=
  [0xdc, 0, 32] ++ h.bytes.flatMap msgpackByteSpec

/-- Modelled from the spec: a MessagePack string. -/
def msgpackStrSpec (s : List Char) : Bytes :=
  (if (utf8Encode s).length < 32 then [0xa0 + (utf8Encode s).length]
   else if (utf8Encode s).length < 256 then [0xd9, (utf8Encode s).length]
   else [0xda, (utf8Encode s).length / 256, (utf8Encode s).length % 256]) ++ utf8Encode s

/-- Modelled from the spec: the MessagePack record the spec describes
for a stored node. -/
def msgpackNodeSpec (nd : Node) : Bytes :=
  [0x93] ++ msgpackU32Spec nd.idx ++ msgpackHashSpec nd.tx_id ++ msgpackStrSpec nd.tx_data

/-- The graph holding exactly the root transaction `txB`. -/
def gC8 : Graph :=
  match Graph.emptyGraph.add txB with
  | .ok gi => gi.1
  | .error _ => Graph.emptyGraph

/-- Counterexample to C8 as stated: the value actually stored for a
concrete added transaction is the bincode record, which differs from
the MessagePack encoding of the same record (bincode starts with the
little-endian index, MessagePack with the 0x93 array header), and the
tree name is "nuts/dag", not "dag". -/
theorem claimC8_counterexample :
    Graph.emptyGraph.add txB = .ok (gC8, 0) ∧
    gC8.tree.get txB.id.bytes = some (bincodeEncodeNode ⟨0, txB.id, [Char.ofNat 97]⟩) ∧
    bincodeEncodeNode ⟨0, txB.id, [Char.ofNat 97]⟩ ≠
      msgpackNodeSpec ⟨0, txB.id, [Char.ofNat 97]⟩ ∧
    dagTreeName ≠ ("dag").data := by
  refine ⟨by decide, by decide, by decide, by decide⟩

/-- Witness for C8 at the concrete add of `txB`. -/
theorem claimC8_witness :
    ∃ s, utf8Decode txB.data = some s ∧
      gC8.tree = Graph.emptyGraph.tree.insert txB.id.bytes
        (bincodeEncodeNode ⟨w32 0, txB.id, s⟩) ∧
      gC8.tree.get txB.id.bytes = some (bincodeEncodeNode ⟨w32 0, txB.id, s⟩) ∧
      (txB.id.bytes.length = 32 → 0 < 2 ^ 32 → (utf8Encode s).length < 2 ^ 64 →
        bincodeDecodeNode (bincodeEncodeNode ⟨w32 0, txB.id, s⟩) = some ⟨0, txB.id, s⟩) :=
  claimC8 Graph.emptyGraph txB gC8 0 (by decide)

end Nuts
